import Mathlib

/-!
Shallow embedding of `e3/collection/dag.py` (class `DAG` and class `DAGIterator`).

Modelling conventions:
* Vertex ids are `Nat` (Python ids are arbitrary hashables).
* Vertex payloads are `Option Nat` (opaque Python objects that may be `None`);
  tags are `Option String`.
* A Python dict `d` indexed by vertex ids is modelled as a total function
  together with the list `verts` of its keys: the function is the
  `d.get(k, default)` view.  Through the public API of the class the key sets
  of `vertex_data` and `__vertex_predecessors` always coincide, so a single
  key list `verts` (in insertion order) serves both.
* `__vertex_successors` is `{}` (not computed) or a computed dict; we model it
  as `Option (Nat → Finset Nat)`.
* Python `raise` is modelled by returning `(some err, state)`: the error
  component tells whether the call raised, the state component is the object
  state after the raise (Python mutations performed before the raise are
  visible on the object).
* Iteration order of a Python `set`/`dict` is unspecified; we fix a concrete
  order (key-list order for dicts, sorted order for sets), a legitimate
  deterministic refinement (the spec declares tie-breaks implementation
  defined).
* Loops whose termination is data driven are written with explicit fuel; the
  fuel bounds are large enough that the fuel is never exhausted on the states
  the code can reach (proved where a claim needs it).
-/

/-- The error kinds of `DAGError`, following the spec's taxonomy; each raise
site of the source is mapped to its kind (`add_vertex` duplicate →
`duplicateVertex`, nonexistent predecessors → `invalidPredecessor`, all cycle
related raises → `cycleDetected`, the failed `assert` of `leave` →
`protocolFault`). -/
inductive DAGError where
  | duplicateVertex
  | invalidPredecessor
  | cycleDetected
  | protocolFault
deriving DecidableEq, Repr

/-- State of a `DAG` object: `verts` is the key list of `vertex_data` (and of
`__vertex_predecessors`), in insertion order. -/
structure DAG where
  verts : List Nat
  vertex_data : Nat → Option Nat
  tags : Nat → Option String
  vertex_predecessors : Nat → Finset Nat
  vertex_successors : Option (Nat → Finset Nat)
  has_cycle : Option Bool

namespace DAG

/-- `DAG.__init__`. -/
def init : DAG :=
  { verts := []
    vertex_data := fun _ => none
    tags := fun _ => none
    vertex_predecessors := fun _ => ∅
    vertex_successors := none
    has_cycle := none }

/-- `DAG.get_predecessors`: `self.__vertex_predecessors.get(vertex_id, frozenset())`. -/
def get_predecessors (g : DAG) (vertex_id : Nat) : Finset Nat :=
  g.vertex_predecessors vertex_id

/-- `DAG.set_predecessors`: store the set and invalidate the successor and
validity caches. -/
def set_predecessors (g : DAG) (vertex_id : Nat) (predecessors : Finset Nat) : DAG :=
  { g with
    vertex_predecessors := Function.update g.vertex_predecessors vertex_id predecessors
    vertex_successors := none
    has_cycle := none }

/-- The successor dict computed by `DAG.get_successors` when the cache is
empty: `k ∈ successors v` iff `k` is a vertex and `v ∈ predecessors k`. -/
def computeSuccs (g : DAG) : Nat → Finset Nat :=
  fun v => (g.verts.filter (fun k => v ∈ g.vertex_predecessors k)).toFinset

/-- `DAG.get_successors`: recompute the successor dict if the cache is
invalid, then read it; returns the value and the updated object. -/
def get_successors (g : DAG) (vertex_id : Nat) : Finset Nat × DAG :=
  match g.vertex_successors with
  | some c => (c vertex_id, g)
  | none =>
    let c := computeSuccs g
    (c vertex_id, { g with vertex_successors := some c })

/-- `DAG.add_tag`. -/
def add_tag (g : DAG) (vertex_id : Nat) (data : String) : DAG :=
  { g with tags := Function.update g.tags vertex_id (some data) }

/-- `DAG.get_tag`: `self.tags.get(vertex_id)`. -/
def get_tag (g : DAG) (vertex_id : Nat) : Option String :=
  g.tags vertex_id

end DAG

/-- State of a `DAGIterator` object.  `states` and `pred_number` are the
`.get`-views of dicts keyed by the vertices.  `pred_number` is an `Int`:
the Python value is a plain integer that is decremented in place. -/
structure DAGIterator where
  dag : DAG
  non_visited : Finset Nat
  states : Nat → Nat
  enable_busy_state : Bool
  pred_number : Nat → Int

namespace DAGIterator

/-- `DAGIterator.NOT_VISITED`. -/
def NOT_VISITED : Nat := 0
/-- `DAGIterator.BUSY`. -/
def BUSY : Nat := 1
/-- `DAGIterator.VISITED`. -/
def VISITED : Nat := 2

/-- `DAGIterator.__init__`. -/
def mk0 (dag : DAG) (enable_busy_state : Bool) : DAGIterator :=
  { dag := dag
    non_visited := dag.verts.toFinset
    states := fun _ => NOT_VISITED
    enable_busy_state := enable_busy_state
    pred_number := fun k => ((dag.vertex_predecessors k).card : Int) }

end DAGIterator

/-- Outcome of one `DAGIterator.next_element` call: `StopIteration`, the
strict-mode cycle error, the busy-mode `(None, None, None)` answer, or a
yielded `(id, data, predecessors)` triple. -/
inductive NextResult where
  | stopIteration
  | cycleError
  | notReady
  | element (id : Nat) (data : Option Nat) (preds : Finset Nat)
deriving DecidableEq

namespace DAGIterator

/-- `DAGIterator.next_element`.  The Python generator scans `self.non_visited`
in unspecified set order; we scan the vertex key list, a deterministic
refinement.  Returns the outcome and the updated iterator (the embedded dag
is threaded because `get_successors` may fill the successor cache). -/
def next_element (it : DAGIterator) : NextResult × DAGIterator :=
  if it.non_visited = ∅ then (.stopIteration, it)
  else
    match it.dag.verts.find? (fun k => decide (k ∈ it.non_visited ∧ it.pred_number k = 0)) with
    | none =>
      if it.enable_busy_state then (.notReady, it) else (.cycleError, it)
    | some result =>
      if it.enable_busy_state then
        let it' := { it with
          states := Function.update it.states result BUSY
          non_visited := it.non_visited.erase result }
        (.element result (it.dag.vertex_data result) (it.dag.get_predecessors result), it')
      else
        let sd := it.dag.get_successors result
        let it' := { it with
          dag := sd.2
          states := Function.update it.states result VISITED
          pred_number := fun k => if k ∈ sd.1 then it.pred_number k - 1 else it.pred_number k
          non_visited := it.non_visited.erase result }
        (.element result (sd.2.vertex_data result) (sd.2.get_predecessors result), it')

/-- `DAGIterator.leave`: the failing `assert` is the spec's ProtocolFault. -/
def leave (it : DAGIterator) (vertex_id : Nat) : Except DAGError DAGIterator :=
  if it.states vertex_id = BUSY then
    let sd := it.dag.get_successors vertex_id
    .ok { it with
      dag := sd.2
      states := Function.update it.states vertex_id VISITED
      pred_number := fun k => if k ∈ sd.1 then it.pred_number k - 1 else it.pred_number k }
  else .error .protocolFault

end DAGIterator

/-- Result of exhausting a strict-mode iterator: the yielded order, the
strict-mode cycle failure, or fuel exhaustion (never reached with fuel
`> |non_visited|`). -/
inductive RunResult where
  | completed (order : List Nat)
  | failed
  | fuelOut
deriving DecidableEq, Repr

/-- Run `next_element` until `StopIteration` (`completed`, collecting the
yielded ids) or a cycle error (`failed`).  This is the `for _ in
DAGIterator(self)` loop of `DAG.check` and the plain iteration of claim C1.
The `notReady` answer cannot occur when `enable_busy_state` is false; it is
mapped to `failed` to make the match total. -/
def runStrict : Nat → DAGIterator → RunResult × DAGIterator
  | 0, it => (.fuelOut, it)
  | fuel + 1, it =>
    match it.next_element with
    | (.stopIteration, it') => (.completed [], it')
    | (.cycleError, it') => (.failed, it')
    | (.notReady, it') => (.failed, it')
    | (.element id _ _, it') =>
      match runStrict fuel it' with
      | (.completed l, it'') => (.completed (id :: l), it'')
      | other => other

namespace DAG

/-- `DAG.check`.  The two cached branches return immediately; otherwise the
predecessor-validity scan runs (its failure also caches `True`), then one full
strict traversal decides the cycle question and its verdict is cached.  The
traversal's successor-cache fills are visible on the returned object. -/
def check (g : DAG) : Option DAGError × DAG :=
  match g.has_cycle with
  | some false => (none, g)
  | some true => (some .cycleDetected, g)
  | none =>
    match g.verts.find? (fun node => decide (∃ k ∈ g.vertex_predecessors node, k ∉ g.verts)) with
    | some _ => (some .invalidPredecessor, { g with has_cycle := some true })
    | none =>
      match runStrict (g.verts.length + 1) (DAGIterator.mk0 g false) with
      | (.completed _, it') => (none, { it'.dag with has_cycle := some false })
      | (_, it') => (some .cycleDetected, { it'.dag with has_cycle := some true })

/-- One iteration of the fixed-point loop of `DAG.get_closure`: process the
snapshot `closure - visited`, adding each element to `visited` and its
predecessors to `closure`. -/
def closureStep (g : DAG) (visited closure : Finset Nat) : Finset Nat × Finset Nat :=
  (visited ∪ (closure \ visited),
   closure ∪ (closure \ visited).biUnion g.vertex_predecessors)

/-- The `while True` loop of `DAG.get_closure`: stop when an iteration leaves
the closure size unchanged. -/
def closureLoop (g : DAG) : Nat → Finset Nat → Finset Nat → Finset Nat
  | 0, _, closure => closure
  | fuel + 1, visited, closure =>
    let s := closureStep g visited closure
    if s.2.card = closure.card then s.2
    else closureLoop g fuel s.1 s.2

/-- `DAG.get_closure`: `check()` first (propagating its failure), then the
fixed-point expansion starting from the direct predecessors.  Fuel
`|verts| + 1` is enough: every non-final iteration strictly grows the closure,
which stays inside the vertex set. -/
def get_closure (g : DAG) (vertex_id : Nat) : Option DAGError × Finset Nat × DAG :=
  match g.check with
  | (some e, g') => (some e, ∅, g')
  | (none, g') =>
    (none, closureLoop g' (g'.verts.length + 1) ∅ (g'.get_predecessors vertex_id), g')

/-- `DAG.update_vertex`.  `predecessors` is the Python argument (a list or
`None`).  The checked path on an existing vertex applies the union
provisionally, runs `get_closure` (hence `check`), and on any `DAGError`
rolls the predecessor set back and fails with the cycle error. -/
def update_vertex (g : DAG) (vertex_id : Nat) (data : Option Nat)
    (predecessors : Option (List Nat)) (enable_checks : Bool) :
    Option DAGError × DAG :=
  let P : Finset Nat := (predecessors.getD []).toFinset
  if enable_checks ∧ ∃ k ∈ P, k ∉ g.verts then
    (some .invalidPredecessor, g)
  else if vertex_id ∉ g.verts then
    let g1 := g.set_predecessors vertex_id P
    let g2 := { g1 with
      vertex_data := Function.update g1.vertex_data vertex_id data
      verts := g1.verts ++ [vertex_id] }
    (none, if enable_checks then g2 else { g2 with has_cycle := none })
  else
    let previous := g.get_predecessors vertex_id
    let g1 := g.set_predecessors vertex_id (previous ∪ P)
    if enable_checks then
      match g1.get_closure vertex_id with
      | (some _, _, g2) => (some .cycleDetected, g2.set_predecessors vertex_id previous)
      | (none, _, g2) =>
        (none, match data with
          | some d => { g2 with vertex_data := Function.update g2.vertex_data vertex_id (some d) }
          | none => g2)
    else
      let g2 := match data with
        | some d => { g1 with vertex_data := Function.update g1.vertex_data vertex_id (some d) }
        | none => g1
      (none, { g2 with has_cycle := none })

/-- `DAG.add_vertex`: fail on a duplicate id, otherwise a checked update. -/
def add_vertex (g : DAG) (vertex_id : Nat) (data : Option Nat)
    (predecessors : Option (List Nat)) : Option DAGError × DAG :=
  if vertex_id ∈ g.verts then (some .duplicateVertex, g)
  else g.update_vertex vertex_id data predecessors true

/-- The local helper `get_next` of `DAG.get_context`: successors when
`reverse_order`, predecessors otherwise (threading the object because
`get_successors` may fill the cache). -/
def get_next (g : DAG) (reverse_order : Bool) (vid : Nat) : Finset Nat × DAG :=
  if reverse_order then g.get_successors vid else (g.get_predecessors vid, g)

/-- The `for n in closure - visited` body of `DAG.get_context`, over the
snapshot list.  State: `(dag, visited, closure, tags)`; the `Bool` of the
result signals the early `return` on `max_element`. -/
def contextInner (reverse_order : Bool) (max_element : Option Nat) (distance : Nat) :
    List Nat → DAG → Finset Nat → Finset Nat → List (Nat × Nat × String) →
    Bool × DAG × Finset Nat × Finset Nat × List (Nat × Nat × String)
  | [], g, visited, closure, tags => (false, g, visited, closure, tags)
  | n :: rest, g, visited, closure, tags =>
    let visited' := insert n visited
    match g.get_tag n with
    | some t =>
      let tags' := tags ++ [(distance, n, t)]
      if max_element = some tags'.length then (true, g, visited', closure, tags')
      else contextInner reverse_order max_element distance rest g visited' closure tags'
    | none =>
      let sd := get_next g reverse_order n
      contextInner reverse_order max_element distance rest sd.2 visited' (closure ∪ sd.1) tags

/-- The `while True` loop of `DAG.get_context`: bump the distance, stop if it
exceeds `max_distance`, process the snapshot `closure - visited` (in key-list
order: the Python set order is unspecified, and every member of the snapshot
is a vertex on the graphs the code can build), stop on the `max_element`
early return or when the closure stopped growing. -/
def contextLoop (reverse_order : Bool) (max_distance max_element : Option Nat) :
    Nat → Nat → DAG → Finset Nat → Finset Nat → List (Nat × Nat × String) →
    List (Nat × Nat × String) × DAG
  | 0, _, g, _, _, tags => (tags, g)
  | fuel + 1, distance, g, visited, closure, tags =>
    let distance' := distance + 1
    if ∃ m ∈ max_distance, m < distance' then (tags, g)
    else
      let snapshot := g.verts.filter (fun n => n ∈ closure \ visited)
      let r := contextInner reverse_order max_element distance' snapshot g visited closure tags
      if r.1 then (r.2.2.2.2, r.2.1)
      else if r.2.2.2.1.card = closure.card then (r.2.2.2.2, r.2.1)
      else contextLoop reverse_order max_distance max_element fuel distance' r.2.1 r.2.2.1 r.2.2.2.1 r.2.2.2.2

/-- `DAG.get_context`: `check()` first; a tag on the vertex itself
short-circuits at distance 0; otherwise the expanding search from the direct
predecessors (or successors).  Fuel `|verts| + 2` covers every possible
iteration: each continuing iteration strictly grows the closure inside the
vertex set. -/
def get_context (g : DAG) (vertex_id : Nat) (max_distance max_element : Option Nat)
    (reverse_order : Bool) : Option DAGError × List (Nat × Nat × String) × DAG :=
  match g.check with
  | (some e, g') => (some e, [], g')
  | (none, g') =>
    match g'.get_tag vertex_id with
    | some t => (none, [(0, vertex_id, t)], g')
    | none =>
      let sd := get_next g' reverse_order vertex_id
      let r := contextLoop reverse_order max_distance max_element
        (sd.2.verts.length + 2) 0 sd.2 ∅ sd.1 []
      (none, r.1, r.2)

/-- One iteration of the construction loop of `DAG.reverse_graph`: insert
`node` with its payload, then give each of its predecessors `node` as a
predecessor of the reversed graph (all unchecked; unchecked updates never
fail).  The predecessor frozenset is iterated in key-list order (Python set
order is unspecified; every predecessor is a key on well-formed graphs). -/
def reverseStep (g : DAG) (acc : DAG) (node : Nat) : DAG :=
  let acc1 := (acc.update_vertex node (g.vertex_data node) none false).2
  (g.verts.filter (fun p => p ∈ g.vertex_predecessors node)).foldl
    (fun a p => (a.update_vertex p none (some [node]) false).2) acc1

/-- `DAG.reverse_graph`: build the edge-inverted graph — `result = DAG()`
with `result.tags = self.tags`, then the construction loop over the
predecessor items — then validate it, mirroring the verdict into
`self.__has_cycle`.  Returns `(error?, updated self, result)`; on error
Python raises, so the result component is never handed to the caller. -/
def reverse_graph (g : DAG) : Option DAGError × DAG × DAG :=
  match (g.verts.foldl (reverseStep g) { DAG.init with tags := g.tags }).check with
  | (some e, r2) => (some e, { g with has_cycle := some true }, r2)
  | (none, r2) => (none, { g with has_cycle := some false }, r2)

end DAG

/-- A Python `for` loop of fallible calls over vertex ids: the first raise
aborts the loop (carrying the state at the raise). -/
def foldE (f : DAG → Nat → Option DAGError × DAG) : List Nat → DAG → Option DAGError × DAG
  | [], g => (none, g)
  | n :: l, g =>
    match f g n with
    | (some e, g') => (some e, g')
    | (none, g') => foldE f l g'

namespace DAG

/-- `DAG.__or__`: vertices of both graphs first (so predecessors exist), then
checked predecessor updates from both graphs, then a final validation; any
raise propagates, so no partially built graph is returned on failure.
The predecessor frozensets are passed in key-list order. -/
def orMerge (a b : DAG) : Option DAGError × DAG :=
  match foldE (fun g nid => g.add_vertex nid none none) a.verts DAG.init with
  | (some e, g) => (some e, g)
  | (none, g1) =>
    match foldE (fun g nid => g.update_vertex nid none none true) b.verts g1 with
    | (some e, g) => (some e, g)
    | (none, g2) =>
      match foldE (fun g nid =>
          g.update_vertex nid (a.vertex_data nid)
            (some (a.verts.filter (fun p => p ∈ a.get_predecessors nid))) true)
          a.verts g2 with
      | (some e, g) => (some e, g)
      | (none, g3) =>
        match foldE (fun g nid =>
            g.update_vertex nid (b.vertex_data nid)
              (some (b.verts.filter (fun p => p ∈ b.get_predecessors nid))) true)
            b.verts g3 with
        | (some e, g) => (some e, g)
        | (none, g4) => g4.check

end DAG

/-! ## Specification-side notions -/

/-- A nonempty path from `v` to `u` following predecessor edges: `u` is a
(strict) transitive predecessor — an ancestor — of `v`. -/
inductive PredPath (g : DAG) : Nat → Nat → Prop where
  | single {v u : Nat} : u ∈ g.vertex_predecessors v → PredPath g v u
  | step {v u w : Nat} : u ∈ g.vertex_predecessors v → PredPath g u w → PredPath g v w

/-- The predecessor relation has no cycle. -/
def Acyclic (g : DAG) : Prop := ∀ v, ¬ PredPath g v v

/-- Well-formedness of a `DAG` object state, as established by the public
API: distinct keys, predecessor ids are vertices, the `.get`-views are
canonical outside the key set, and both caches hold only valid contents. -/
structure WF (g : DAG) : Prop where
  nodup : g.verts.Nodup
  preds_mem : ∀ v ∈ g.verts, ∀ p ∈ g.vertex_predecessors v, p ∈ g.verts
  preds_outside : ∀ v, v ∉ g.verts → g.vertex_predecessors v = ∅
  succ_coherent : ∀ c, g.vertex_successors = some c → c = g.computeSuccs
  cycle_coherent : ∀ b, g.has_cycle = some b → (b = true ↔ ¬ Acyclic g)

/-! ## Basic lemmas -/

theorem DAG.mem_computeSuccs {g : DAG} {k v : Nat} :
    k ∈ g.computeSuccs v ↔ k ∈ g.verts ∧ v ∈ g.vertex_predecessors k := by
  simp [DAG.computeSuccs, List.mem_filter, and_comm]

/-- Any predecessor id occurring anywhere is a vertex (combining the two
well-formedness clauses). -/
theorem WF.mem_of_pred {g : DAG} (hg : WF g) {v p : Nat}
    (hp : p ∈ g.vertex_predecessors v) : p ∈ g.verts := by
  by_cases hv : v ∈ g.verts
  · exact hg.preds_mem v hv p hp
  · rw [hg.preds_outside v hv] at hp
    exact absurd hp (Finset.not_mem_empty p)

theorem DAG.get_successors_fst {g : DAG} (hg : WF g) (v : Nat) :
    (g.get_successors v).1 = g.computeSuccs v := by
  unfold DAG.get_successors
  match h : g.vertex_successors with
  | some c => simp [hg.succ_coherent c h]
  | none => simp

theorem DAG.get_successors_snd {g : DAG} (v : Nat) :
    (g.get_successors v).2.verts = g.verts ∧
    (g.get_successors v).2.vertex_data = g.vertex_data ∧
    (g.get_successors v).2.tags = g.tags ∧
    (g.get_successors v).2.vertex_predecessors = g.vertex_predecessors ∧
    (g.get_successors v).2.has_cycle = g.has_cycle := by
  unfold DAG.get_successors
  match h : g.vertex_successors with
  | some c => simp
  | none => simp

/-- Transitivity of predecessor paths. -/
theorem PredPath.trans {g : DAG} {a b c : Nat}
    (h1 : PredPath g a b) (h2 : PredPath g b c) : PredPath g a c := by
  induction h1 with
  | single h => exact PredPath.step h h2
  | step h _ ih => exact PredPath.step h (ih h2)

/-- Extending a path by one predecessor edge at the far end. -/
theorem PredPath.snoc {g : DAG} {a b c : Nat}
    (h1 : PredPath g a b) (h2 : c ∈ g.vertex_predecessors b) : PredPath g a c :=
  h1.trans (PredPath.single h2)

/-- Paths only depend on the predecessor field. -/
theorem PredPath.congr_preds {g g' : DAG}
    (hp : g'.vertex_predecessors = g.vertex_predecessors) {a b : Nat}
    (h : PredPath g a b) : PredPath g' a b := by
  induction h with
  | single h => exact PredPath.single (by rw [hp]; exact h)
  | step h _ ih => exact PredPath.step (by rw [hp]; exact h) ih

theorem Acyclic.congr_rel {g g' : DAG}
    (hp : g'.vertex_predecessors = g.vertex_predecessors)
    (h : Acyclic g) : Acyclic g' :=
  fun v hv => h v (hv.congr_preds hp.symm)

theorem DAG.get_successors_snd_WF {g : DAG} (hg : WF g) (v : Nat) :
    WF (g.get_successors v).2 := by
  unfold DAG.get_successors
  match h : g.vertex_successors with
  | some c => simpa using hg
  | none =>
    simp only
    constructor <;> simp only
    · exact hg.nodup
    · exact hg.preds_mem
    · exact hg.preds_outside
    · intro c hc
      have hc' : c = g.computeSuccs := by simpa using hc.symm
      rw [hc']
      rfl
    · intro b hb
      have h1 : g.has_cycle = some b := hb
      have h2 := hg.cycle_coherent b h1
      have heq : Acyclic { g with vertex_successors := some (g.computeSuccs) } ↔ Acyclic g :=
        ⟨fun ha => @Acyclic.congr_rel { g with vertex_successors := some (g.computeSuccs) } g rfl ha,
         fun ha => @Acyclic.congr_rel g { g with vertex_successors := some (g.computeSuccs) } rfl ha⟩
      rw [h2]
      exact not_congr heq.symm

/-- A nonempty set each of whose members has a predecessor inside the set
forces a cycle (follow chosen predecessors long enough and repeat). -/
theorem cycle_of_closed_set {g : DAG} {C : Finset Nat} (hne : C.Nonempty)
    (hcl : ∀ v ∈ C, ∃ u ∈ C, u ∈ g.vertex_predecessors v) :
    ∃ v, PredPath g v v := by
  classical
  obtain ⟨v0, hv0⟩ := hne
  choose! f hfC hfp using hcl
  set seq : Nat → Nat := fun n => f^[n] v0 with hseq
  have hmem : ∀ n, seq n ∈ C := by
    intro n
    induction n with
    | zero => simpa [hseq] using hv0
    | succ n ih =>
      have : seq (n + 1) = f (seq n) := by
        simp [hseq, Function.iterate_succ_apply']
      rw [this]
      exact hfC _ ih
  have hstep : ∀ n, seq (n + 1) ∈ g.vertex_predecessors (seq n) := by
    intro n
    have : seq (n + 1) = f (seq n) := by
      simp [hseq, Function.iterate_succ_apply']
    rw [this]
    exact hfp _ (hmem n)
  have hpath : ∀ d n, PredPath g (seq n) (seq (n + (d + 1))) := by
    intro d
    induction d with
    | zero => intro n; exact PredPath.single (hstep n)
    | succ d ih =>
      intro n
      have h1 : PredPath g (seq n) (seq (n + 1)) := PredPath.single (hstep n)
      have h2 := ih (n + 1)
      have : n + 1 + (d + 1) = n + (d + 1 + 1) := by omega
      rw [this] at h2
      exact h1.trans h2
  have hmap : ∀ n ∈ Finset.range (C.card + 1), seq n ∈ C := fun n _ => hmem n
  have hlt : C.card < (Finset.range (C.card + 1)).card := by simp
  obtain ⟨i, hi, j, hj, hne', heq⟩ :=
    Finset.exists_ne_map_eq_of_card_lt_of_maps_to hlt hmap
  rcases Nat.lt_or_ge i j with hij | hij
  · obtain ⟨d, rfl⟩ : ∃ d, j = i + (d + 1) := ⟨j - i - 1, by omega⟩
    exact ⟨seq i, heq ▸ hpath d i⟩
  · have hji : j < i := lt_of_le_of_ne hij (fun h => hne' h.symm)
    obtain ⟨d, rfl⟩ : ∃ d, i = j + (d + 1) := ⟨i - j - 1, by omega⟩
    exact ⟨seq j, heq ▸ (hpath d j)⟩

/-- From a path, a chain list of its vertices. -/
theorem PredPath.exists_chain {g : DAG} {a b : Nat} (h : PredPath g a b) :
    ∃ L : List Nat, L ≠ [] ∧ List.Chain (fun x y => y ∈ g.vertex_predecessors x) a L ∧
      L.getLast? = some b := by
  induction h with
  | @single v u h => exact ⟨[u], by simp, by simp [h], by simp⟩
  | @step v u w h _ ih =>
    obtain ⟨L, hne, hch, hlast⟩ := ih
    refine ⟨u :: L, by simp, ?_, ?_⟩
    · exact List.Chain.cons h hch
    · cases L with
      | nil => exact absurd rfl hne
      | cons b L' => rw [List.getLast?_cons_cons]; exact hlast

/-- In a chain, every member except the final one is related to the next
member of the list. -/
theorem chain_next {r : Nat → Nat → Prop} :
    ∀ (a : Nat) (L : List Nat), List.Chain r a L →
      ∀ x ∈ a :: L, (a :: L).getLast? = some x ∨ ∃ u ∈ a :: L, r x u := by
  intro a L
  induction L generalizing a with
  | nil =>
    intro _ x hx
    simp only [List.mem_singleton] at hx
    subst hx
    left; simp
  | cons b L' ih =>
    intro hch x hx
    rcases List.chain_cons.mp hch with ⟨hab, hch'⟩
    rcases List.mem_cons.mp hx with rfl | hx'
    · right
      exact ⟨b, by simp, hab⟩
    · rcases ih b hch' x hx' with hlast | ⟨u, hu, hru⟩
      · left
        rw [List.getLast?_cons_cons]
        exact hlast
      · right
        exact ⟨u, List.mem_cons_of_mem _ hu, hru⟩

/-- In a chain, every member of the tail is a target of the relation. -/
theorem chain_mem_target {r : Nat → Nat → Prop} :
    ∀ (a : Nat) (L : List Nat), List.Chain r a L →
      ∀ y ∈ L, ∃ x, r x y := by
  intro a L
  induction L generalizing a with
  | nil => intro _ y hy; cases hy
  | cons b L' ih =>
    intro hch y hy
    rcases List.chain_cons.mp hch with ⟨hab, hch'⟩
    rcases List.mem_cons.mp hy with rfl | hy'
    · exact ⟨a, hab⟩
    · exact ih b hch' y hy'

/-- A cycle yields a nonempty set of vertices, each with a predecessor inside
the set. -/
theorem closed_set_of_cycle {g : DAG} (hg : WF g) {v : Nat} (h : PredPath g v v) :
    ∃ C : Finset Nat, C.Nonempty ∧ (∀ x ∈ C, x ∈ g.verts) ∧
      (∀ x ∈ C, ∃ u ∈ C, u ∈ g.vertex_predecessors x) := by
  obtain ⟨L, hne, hch, hlast⟩ := h.exists_chain
  refine ⟨(v :: L).toFinset, by simp, ?_, ?_⟩
  · intro x hx
    rw [List.mem_toFinset] at hx
    rcases List.mem_cons.mp hx with hxv | hx'
    · -- v is the last element of L, hence a target of the chain relation
      have hvL : v ∈ L := List.mem_of_mem_getLast? hlast
      obtain ⟨y, hy⟩ := chain_mem_target v L hch v hvL
      rw [hxv]
      exact hg.mem_of_pred hy
    · obtain ⟨y, hy⟩ := chain_mem_target v L hch x hx'
      exact hg.mem_of_pred hy
  · intro x hx
    rw [List.mem_toFinset] at hx
    rcases chain_next v L hch x hx with hlast' | ⟨u, hu, hru⟩
    · -- x is the last element, i.e. x = v; the first chain link leaves v
      have hxv : x = v := by
        cases L with
        | nil => exact absurd rfl hne
        | cons b L' =>
          rw [List.getLast?_cons_cons] at hlast'
          rw [hlast'] at hlast
          exact Option.some_inj.mp hlast
      subst hxv
      cases L with
      | nil => exact absurd rfl hne
      | cons b L' =>
        rcases List.chain_cons.mp hch with ⟨hab, _⟩
        exact ⟨b, by simp, hab⟩
    · exact ⟨u, List.mem_toFinset.mpr hu, hru⟩

/-! ## The strict iterator: invariant and main run lemmas -/

/-- Invariant tying a strict-mode iterator state to the graph it was created
from: the embedded dag still has the graph's fields (only its successor cache
may have been filled), the unvisited pool is inside the vertex set, and each
pending counter equals the number of unvisited predecessors. -/
structure ItInv (g : DAG) (it : DAGIterator) : Prop where
  verts_eq : it.dag.verts = g.verts
  preds_eq : it.dag.vertex_predecessors = g.vertex_predecessors
  data_eq : it.dag.vertex_data = g.vertex_data
  tags_eq : it.dag.tags = g.tags
  hc_eq : it.dag.has_cycle = g.has_cycle
  wf : WF it.dag
  strict : it.enable_busy_state = false
  nv_sub : ∀ k ∈ it.non_visited, k ∈ g.verts
  pn : ∀ k, it.pred_number k = ((g.vertex_predecessors k ∩ it.non_visited).card : Int)

theorem computeSuccs_congr {g g' : DAG} (hv : g'.verts = g.verts)
    (hp : g'.vertex_predecessors = g.vertex_predecessors) :
    g'.computeSuccs = g.computeSuccs := by
  funext v
  simp [DAG.computeSuccs, hv, hp]

theorem mk0_inv {g : DAG} (hg : WF g) : ItInv g (DAGIterator.mk0 g false) := by
  refine ⟨rfl, rfl, rfl, rfl, rfl, hg, rfl, ?_, ?_⟩
  · intro k hk
    simpa [DAGIterator.mk0] using hk
  · intro k
    have hsub : g.vertex_predecessors k ∩ g.verts.toFinset = g.vertex_predecessors k := by
      apply Finset.inter_eq_left.mpr
      intro p hp
      exact List.mem_toFinset.mpr (hg.mem_of_pred hp)
    simp [DAGIterator.mk0, hsub]

/-- `l` is a correct topological continuation when the set `s` has already
been visited. -/
inductive IsTopo (g : DAG) : Finset Nat → List Nat → Prop where
  | nil (s : Finset Nat) : IsTopo g s []
  | cons {s : Finset Nat} {v : Nat} {l : List Nat} :
      (∀ p ∈ g.vertex_predecessors v, p ∈ s) → IsTopo g (insert v s) l →
      IsTopo g s (v :: l)

/-- What one successful strict `next_element` step does, given the invariant:
the found vertex is unvisited with no unvisited predecessor, and the invariant
is preserved on the shrunk pool. -/
theorem next_element_elem {g : DAG} {it : DAGIterator} (hI : ItInv g it)
    (hne : ¬ it.non_visited = ∅) {r : Nat}
    (hfind : it.dag.verts.find?
      (fun k => decide (k ∈ it.non_visited ∧ it.pred_number k = 0)) = some r) :
    ∃ it', it.next_element =
        (.element r (it.dag.vertex_data r) (it.dag.get_predecessors r), it') ∧
      ItInv g it' ∧ it'.non_visited = it.non_visited.erase r ∧
      r ∈ it.non_visited ∧ g.vertex_predecessors r ∩ it.non_visited = ∅ ∧
      r ∈ g.verts := by
  have hprop := List.find?_some hfind
  rw [decide_eq_true_eq] at hprop
  obtain ⟨hrnv, hrpn⟩ := hprop
  have hrv : r ∈ g.verts := hI.nv_sub r hrnv
  have hempty : g.vertex_predecessors r ∩ it.non_visited = ∅ := by
    have := hI.pn r
    rw [hrpn] at this
    have hcard : (g.vertex_predecessors r ∩ it.non_visited).card = 0 := by
      exact_mod_cast this.symm
    exact Finset.card_eq_zero.mp hcard
  have hsucc1 : (it.dag.get_successors r).1 = g.computeSuccs r := by
    rw [DAG.get_successors_fst hI.wf, computeSuccs_congr hI.verts_eq hI.preds_eq]
  obtain ⟨hv2, hd2, ht2, hp2, hh2⟩ := DAG.get_successors_snd (g := it.dag) r
  refine ⟨{ it with
      dag := (it.dag.get_successors r).2
      states := Function.update it.states r DAGIterator.VISITED
      pred_number := fun k =>
        if k ∈ (it.dag.get_successors r).1 then it.pred_number k - 1 else it.pred_number k
      non_visited := it.non_visited.erase r }, ?_, ?_, rfl, hrnv, hempty, hrv⟩
  · unfold DAGIterator.next_element
    rw [if_neg hne, hfind]
    simp only [hI.strict, Bool.false_eq_true, if_false]
    have h1 : (it.dag.get_successors r).2.vertex_data r = it.dag.vertex_data r := by rw [hd2]
    have h2 : (it.dag.get_successors r).2.get_predecessors r = it.dag.get_predecessors r := by
      unfold DAG.get_predecessors
      rw [hp2]
    rw [h1, h2]
  · refine ⟨?_, ?_, ?_, ?_, ?_, ?_, hI.strict, ?_, ?_⟩
    · simpa [hv2] using hI.verts_eq
    · simpa [hp2] using hI.preds_eq
    · simpa [hd2] using hI.data_eq
    · simpa [ht2] using hI.tags_eq
    · simpa [hh2] using hI.hc_eq
    · exact DAG.get_successors_snd_WF hI.wf r
    · intro k hk
      exact hI.nv_sub k (Finset.mem_of_mem_erase hk)
    · intro k
      simp only [hsucc1]
      by_cases hks : k ∈ g.computeSuccs r
      · rw [if_pos hks]
        obtain ⟨hkv, hrk⟩ := DAG.mem_computeSuccs.mp hks
        have hr_in : r ∈ g.vertex_predecessors k ∩ it.non_visited := by
          exact Finset.mem_inter.mpr ⟨hrk, hrnv⟩
        have heq : g.vertex_predecessors k ∩ it.non_visited.erase r =
            (g.vertex_predecessors k ∩ it.non_visited).erase r := by
          ext x
          simp only [Finset.mem_inter, Finset.mem_erase]
          tauto
        rw [hI.pn k, heq, Finset.card_erase_of_mem hr_in]
        have hpos : 0 < (g.vertex_predecessors k ∩ it.non_visited).card :=
          Finset.card_pos.mpr ⟨r, hr_in⟩
        omega
      · rw [if_neg hks]
        have hrk : r ∉ g.vertex_predecessors k := by
          intro hmem
          by_cases hkv : k ∈ g.verts
          · exact hks (DAG.mem_computeSuccs.mpr ⟨hkv, hmem⟩)
          · have h0 : g.vertex_predecessors k = ∅ := by
              have hout := hI.wf.preds_outside k
              rw [hI.verts_eq, hI.preds_eq] at hout
              exact hout hkv
            rw [h0] at hmem
            exact Finset.not_mem_empty r hmem
        have heq : g.vertex_predecessors k ∩ it.non_visited.erase r =
            g.vertex_predecessors k ∩ it.non_visited := by
          ext x
          simp only [Finset.mem_inter, Finset.mem_erase]
          exact ⟨fun ⟨h1, _, h3⟩ => ⟨h1, h3⟩,
            fun ⟨h1, h2⟩ => ⟨h1, fun he => hrk (he ▸ h1), h2⟩⟩
        rw [hI.pn k, heq]

theorem next_element_stop {it : DAGIterator} (h : it.non_visited = ∅) :
    it.next_element = (.stopIteration, it) := by
  unfold DAGIterator.next_element
  rw [if_pos h]

theorem next_element_blocked {it : DAGIterator} (hne : ¬ it.non_visited = ∅)
    (hstrict : it.enable_busy_state = false)
    (hfind : it.dag.verts.find?
      (fun k => decide (k ∈ it.non_visited ∧ it.pred_number k = 0)) = none) :
    it.next_element = (.cycleError, it) := by
  unfold DAGIterator.next_element
  rw [if_neg hne, hfind]
  simp [hstrict]

theorem runStrict_succ_stop {fuel : Nat} {it it' : DAGIterator}
    (hstep : it.next_element = (.stopIteration, it')) :
    runStrict (fuel + 1) it = (.completed [], it') := by
  unfold runStrict
  rw [hstep]

theorem runStrict_succ_failed {fuel : Nat} {it it' : DAGIterator}
    (hstep : it.next_element = (.cycleError, it')) :
    runStrict (fuel + 1) it = (.failed, it') := by
  unfold runStrict
  rw [hstep]

theorem runStrict_succ_elem {fuel : Nat} {it it1 : DAGIterator} {r : Nat}
    {d : Option Nat} {p : Finset Nat}
    (hstep : it.next_element = (.element r d p, it1)) :
    runStrict (fuel + 1) it =
      (match runStrict fuel it1 with
        | (.completed l, it2) => (.completed (r :: l), it2)
        | other => other) := by
  conv_lhs => rw [runStrict]
  rw [hstep]

/-- If no unvisited vertex is ready, every unvisited vertex has an unvisited
predecessor — hence (pool nonempty) a cycle. -/
theorem cycle_of_no_ready {g : DAG} {it : DAGIterator} (hI : ItInv g it)
    (hne : ¬ it.non_visited = ∅)
    (hfind : it.dag.verts.find?
      (fun k => decide (k ∈ it.non_visited ∧ it.pred_number k = 0)) = none) :
    ∃ v, PredPath g v v := by
  have hall : ∀ v ∈ it.non_visited, ∃ u ∈ it.non_visited, u ∈ g.vertex_predecessors v := by
    intro v hv
    have hvdag : v ∈ it.dag.verts := by
      rw [hI.verts_eq]
      exact hI.nv_sub v hv
    have hnp := List.find?_eq_none.mp hfind v hvdag
    rw [decide_eq_true_eq] at hnp
    have hpn : ¬ it.pred_number v = 0 := fun h0 => hnp ⟨hv, h0⟩
    rw [hI.pn v] at hpn
    have hcard : (g.vertex_predecessors v ∩ it.non_visited).card ≠ 0 := by
      intro h0
      exact hpn (by exact_mod_cast congrArg (Nat.cast : Nat → Int) h0)
    obtain ⟨u, hu⟩ := Finset.card_ne_zero.mp hcard
    rw [Finset.mem_inter] at hu
    exact ⟨u, hu.2, hu.1⟩
  obtain ⟨u, hu⟩ := Finset.nonempty_iff_ne_empty.mpr hne
  have hswap : ∀ v ∈ it.non_visited, ∃ w ∈ it.non_visited, w ∈ g.vertex_predecessors v := hall
  exact cycle_of_closed_set ⟨u, hu⟩ hswap

/-- If the graph is acyclic, the strict run completes, visits exactly the
unvisited pool, without repetition, in an order that respects the
predecessor relation relative to the already-visited set. -/
theorem runStrict_completes {g : DAG} (hg : WF g) (hac : Acyclic g) :
    ∀ (fuel : Nat) (it : DAGIterator), ItInv g it → it.non_visited.card < fuel →
    ∃ l it', runStrict fuel it = (.completed l, it') ∧ ItInv g it' ∧
      it'.non_visited = ∅ ∧ l.Nodup ∧ l.toFinset = it.non_visited ∧
      IsTopo g (g.verts.toFinset \ it.non_visited) l := by
  intro fuel
  induction fuel with
  | zero => intro it _ hf; exact absurd hf (by omega)
  | succ fuel ih =>
    intro it hI hf
    by_cases hnv : it.non_visited = ∅
    · refine ⟨[], it, ?_, hI, hnv, by simp, by simp [hnv], IsTopo.nil _⟩
      exact runStrict_succ_stop (next_element_stop hnv)
    · cases hfind : it.dag.verts.find?
        (fun k => decide (k ∈ it.non_visited ∧ it.pred_number k = 0)) with
      | none =>
        exfalso
        obtain ⟨v, hv⟩ := cycle_of_no_ready hI hnv hfind
        exact hac v hv
      | some r =>
        obtain ⟨it1, hstep, hI1, hnv1, hrnv, hempty, hrv⟩ := next_element_elem hI hnv hfind
        have hcard1 : it1.non_visited.card < fuel := by
          rw [hnv1, Finset.card_erase_of_mem hrnv]
          have : 0 < it.non_visited.card := Finset.card_pos.mpr ⟨r, hrnv⟩
          omega
        obtain ⟨l', it2, hrun, hI2, hnv2, hnd, htf, htopo⟩ := ih it1 hI1 hcard1
        refine ⟨r :: l', it2, ?_, hI2, hnv2, ?_, ?_, ?_⟩
        · rw [runStrict_succ_elem hstep, hrun]
        · refine List.nodup_cons.mpr ⟨?_, hnd⟩
          intro hrl
          have : r ∈ it1.non_visited := htf ▸ List.mem_toFinset.mpr hrl
          rw [hnv1] at this
          exact Finset.not_mem_erase r it.non_visited this
        · rw [List.toFinset_cons, htf, hnv1, Finset.insert_erase hrnv]
        · refine IsTopo.cons ?_ ?_
          · intro p hp
            rw [Finset.mem_sdiff]
            refine ⟨List.mem_toFinset.mpr (hg.mem_of_pred hp), ?_⟩
            intro hpnv
            have : p ∈ g.vertex_predecessors r ∩ it.non_visited :=
              Finset.mem_inter.mpr ⟨hp, hpnv⟩
            rw [hempty] at this
            exact Finset.not_mem_empty p this
          · have heq : g.verts.toFinset \ it1.non_visited =
                insert r (g.verts.toFinset \ it.non_visited) := by
              rw [hnv1]
              exact Finset.sdiff_erase (List.mem_toFinset.mpr hrv)
            rw [heq] at htopo
            exact htopo

/-- If some nonempty set of unvisited vertices is closed under "has an
unvisited predecessor inside the set", the strict run fails with the cycle
error. -/
theorem runStrict_fails {g : DAG} {C : Finset Nat}
    (hCcl : ∀ v ∈ C, ∃ u ∈ C, u ∈ g.vertex_predecessors v) (hCne : C.Nonempty) :
    ∀ (fuel : Nat) (it : DAGIterator), ItInv g it → (∀ x ∈ C, x ∈ it.non_visited) →
    it.non_visited.card < fuel →
    ∃ it', runStrict fuel it = (.failed, it') ∧ ItInv g it' := by
  intro fuel
  induction fuel with
  | zero => intro it _ _ hf; exact absurd hf (by omega)
  | succ fuel ih =>
    intro it hI hC hf
    obtain ⟨c0, hc0⟩ := hCne
    have hnv : ¬ it.non_visited = ∅ := by
      intro h
      have := hC c0 hc0
      rw [h] at this
      exact Finset.not_mem_empty c0 this
    cases hfind : it.dag.verts.find?
        (fun k => decide (k ∈ it.non_visited ∧ it.pred_number k = 0)) with
    | none =>
      refine ⟨it, ?_, hI⟩
      exact runStrict_succ_failed (next_element_blocked hnv hI.strict hfind)
    | some r =>
      obtain ⟨it1, hstep, hI1, hnv1, hrnv, hempty, _⟩ := next_element_elem hI hnv hfind
      have hrC : r ∉ C := by
        intro hrC
        obtain ⟨u, huC, hup⟩ := hCcl r hrC
        have : u ∈ g.vertex_predecessors r ∩ it.non_visited :=
          Finset.mem_inter.mpr ⟨hup, hC u huC⟩
        rw [hempty] at this
        exact Finset.not_mem_empty u this
      have hC1 : ∀ x ∈ C, x ∈ it1.non_visited := by
        intro x hx
        rw [hnv1]
        exact Finset.mem_erase.mpr ⟨fun he => hrC (he ▸ hx), hC x hx⟩
      have hcard1 : it1.non_visited.card < fuel := by
        rw [hnv1, Finset.card_erase_of_mem hrnv]
        have : 0 < it.non_visited.card := Finset.card_pos.mpr ⟨r, hrnv⟩
        omega
      obtain ⟨it2, hrun, hI2⟩ := ih it1 hI1 hC1 hcard1
      refine ⟨it2, ?_, hI2⟩
      rw [runStrict_succ_elem hstep, hrun]

/-! ## `check`: specification lemmas and claim C2 -/

theorem WF_congr {g g' : DAG} (hv : g'.verts = g.verts)
    (hp : g'.vertex_predecessors = g.vertex_predecessors)
    (hs : g'.vertex_successors = g.vertex_successors)
    (hh : g'.has_cycle = g.has_cycle) (hg : WF g) : WF g' := by
  have hcs : g'.computeSuccs = g.computeSuccs := computeSuccs_congr hv hp
  refine ⟨?_, ?_, ?_, ?_, ?_⟩
  · rw [hv]; exact hg.nodup
  · rw [hv, hp]; exact hg.preds_mem
  · rw [hv, hp]; exact hg.preds_outside
  · intro c hc
    rw [hcs]
    exact hg.succ_coherent c (hs ▸ hc)
  · intro b hb
    rw [hg.cycle_coherent b (hh ▸ hb)]
    exact not_congr ⟨fun h => Acyclic.congr_rel hp h, fun h => Acyclic.congr_rel hp.symm h⟩

theorem WF_replace_hc {g : DAG} (hg : WF g) (b : Bool) (hb : b = true ↔ ¬ Acyclic g) :
    WF { g with has_cycle := some b } := by
  refine ⟨hg.nodup, hg.preds_mem, hg.preds_outside, ?_, ?_⟩
  · intro c hc
    have : g.vertex_successors = some c := hc
    have hcs : DAG.computeSuccs { g with has_cycle := some b } = g.computeSuccs :=
      computeSuccs_congr rfl rfl
    rw [hcs]
    exact hg.succ_coherent c this
  · intro b' hb'
    have hbb : b' = b := by
      have h2 : (some b : Option Bool) = some b' := hb'
      exact (Option.some_inj.mp h2).symm
    subst hbb
    rw [hb]
    exact not_congr ⟨fun h => @Acyclic.congr_rel g { g with has_cycle := some b' } rfl h,
      fun h => @Acyclic.congr_rel { g with has_cycle := some b' } g rfl h⟩

/-- Under well-formedness the predecessor-validity scan of `check` finds
nothing. -/
theorem check_scan_none {g : DAG} (hg : WF g) :
    g.verts.find? (fun node => decide (∃ k ∈ g.vertex_predecessors node, k ∉ g.verts)) = none := by
  rw [List.find?_eq_none]
  intro node hnode
  simp only [decide_eq_true_eq, not_exists]
  intro k hk
  exact hk.2 (hg.preds_mem node hnode k hk.1)

/-- `check` on an uncached acyclic well-formed graph: success, verdict cached
valid, all graph fields preserved. -/
theorem DAG.check_uncached_acyclic {g : DAG} (hg : WF g) (hn : g.has_cycle = none)
    (hac : Acyclic g) :
    ∃ g', g.check = (none, g') ∧ g'.verts = g.verts ∧
      g'.vertex_predecessors = g.vertex_predecessors ∧
      g'.vertex_data = g.vertex_data ∧ g'.tags = g.tags ∧
      g'.has_cycle = some false ∧ WF g' := by
  have hcard : (DAGIterator.mk0 g false).non_visited.card < g.verts.length + 1 := by
    have : g.verts.toFinset.card ≤ g.verts.length := g.verts.toFinset_card_le
    simpa [DAGIterator.mk0] using Nat.lt_succ_of_le this
  obtain ⟨l, it', hrun, hI', _, _, _, _⟩ :=
    runStrict_completes hg hac (g.verts.length + 1) (DAGIterator.mk0 g false)
      (mk0_inv hg) hcard
  refine ⟨{ it'.dag with has_cycle := some false }, ?_, ?_, ?_, ?_, ?_, rfl, ?_⟩
  · unfold DAG.check
    rw [hn, check_scan_none hg, hrun]
  · exact hI'.verts_eq
  · exact hI'.preds_eq
  · exact hI'.data_eq
  · exact hI'.tags_eq
  · have hac' : Acyclic it'.dag := Acyclic.congr_rel hI'.preds_eq hac
    exact WF_replace_hc hI'.wf false (by simp [hac'])

/-- `check` on an uncached cyclic well-formed graph: the cycle error, verdict
cached invalid, all graph fields preserved. -/
theorem DAG.check_uncached_cyclic {g : DAG} (hg : WF g) (hn : g.has_cycle = none)
    (hac : ¬ Acyclic g) :
    ∃ g', g.check = (some .cycleDetected, g') ∧ g'.verts = g.verts ∧
      g'.vertex_predecessors = g.vertex_predecessors ∧
      g'.vertex_data = g.vertex_data ∧ g'.tags = g.tags ∧
      g'.has_cycle = some true ∧ WF g' := by
  simp only [Acyclic, not_forall, not_not] at hac
  obtain ⟨v, hv⟩ := hac
  obtain ⟨C, hCne, hCverts, hCcl⟩ := closed_set_of_cycle hg hv
  have hCnv : ∀ x ∈ C, x ∈ (DAGIterator.mk0 g false).non_visited := by
    intro x hx
    simpa [DAGIterator.mk0] using hCverts x hx
  have hcard : (DAGIterator.mk0 g false).non_visited.card < g.verts.length + 1 := by
    have : g.verts.toFinset.card ≤ g.verts.length := g.verts.toFinset_card_le
    simpa [DAGIterator.mk0] using Nat.lt_succ_of_le this
  obtain ⟨it', hrun, hI'⟩ :=
    runStrict_fails hCcl hCne (g.verts.length + 1) (DAGIterator.mk0 g false)
      (mk0_inv hg) hCnv hcard
  refine ⟨{ it'.dag with has_cycle := some true }, ?_, ?_, ?_, ?_, ?_, rfl, ?_⟩
  · unfold DAG.check
    rw [hn, check_scan_none hg, hrun]
  · exact hI'.verts_eq
  · exact hI'.preds_eq
  · exact hI'.data_eq
  · exact hI'.tags_eq
  · have hac' : ¬ Acyclic it'.dag := by
      intro h
      exact (@Acyclic.congr_rel it'.dag g hI'.preds_eq.symm h v hv).elim
    exact WF_replace_hc hI'.wf true (by simpa using hac')

theorem DAG.check_cached_valid {g : DAG} (h : g.has_cycle = some false) :
    g.check = (none, g) := by
  unfold DAG.check
  rw [h]

theorem DAG.check_cached_invalid {g : DAG} (h : g.has_cycle = some true) :
    g.check = (some .cycleDetected, g) := by
  unfold DAG.check
  rw [h]

/-- Everything `check` guarantees when it succeeds, on a well-formed graph. -/
theorem DAG.check_ok_fields {g g' : DAG} (hg : WF g) (h : g.check = (none, g')) :
    g'.verts = g.verts ∧ g'.vertex_predecessors = g.vertex_predecessors ∧
    g'.vertex_data = g.vertex_data ∧ g'.tags = g.tags ∧ WF g' ∧ Acyclic g ∧
    g'.has_cycle = some false := by
  match hc : g.has_cycle with
  | some false =>
    have hch := DAG.check_cached_valid hc
    rw [h] at hch
    have hgg : g' = g := by simpa using congrArg Prod.snd hch
    subst hgg
    have hb := hg.cycle_coherent false hc
    simp only [Bool.false_eq_true, false_iff, not_not] at hb
    exact ⟨rfl, rfl, rfl, rfl, hg, hb, hc⟩
  | some true =>
    have hch := DAG.check_cached_invalid hc
    rw [h] at hch
    exact absurd (congrArg Prod.fst hch) (by simp)
  | none =>
    by_cases hac : Acyclic g
    · obtain ⟨g'', hch, hv, hp, hd, ht, hhc, hwf⟩ := DAG.check_uncached_acyclic hg hc hac
      rw [h] at hch
      have hgg : g' = g'' := by simpa using congrArg Prod.snd hch
      subst hgg
      exact ⟨hv, hp, hd, ht, hwf, hac, hhc⟩
    · obtain ⟨g'', hch, _⟩ := DAG.check_uncached_cyclic hg hc hac
      rw [h] at hch
      exact absurd (congrArg Prod.fst hch) (by simp)

/-- Everything `check` guarantees when it fails, on a well-formed graph: the
error is the cycle error and the graph's observable fields are untouched. -/
theorem DAG.check_err_fields {g g' : DAG} {e : DAGError} (hg : WF g)
    (h : g.check = (some e, g')) :
    e = DAGError.cycleDetected ∧ g'.verts = g.verts ∧
    g'.vertex_predecessors = g.vertex_predecessors ∧
    g'.vertex_data = g.vertex_data ∧ g'.tags = g.tags ∧ WF g' ∧ ¬ Acyclic g := by
  match hc : g.has_cycle with
  | some false =>
    have hch := DAG.check_cached_valid hc
    rw [h] at hch
    exact absurd (congrArg Prod.fst hch) (by simp)
  | some true =>
    have hch := DAG.check_cached_invalid hc
    rw [h] at hch
    have he : e = DAGError.cycleDetected := by
      have := congrArg Prod.fst hch
      simpa using this
    have hgg : g' = g := by
      have := congrArg Prod.snd hch
      simpa using this
    subst hgg
    have hb := hg.cycle_coherent true hc
    simp only [true_iff] at hb
    exact ⟨he, rfl, rfl, rfl, rfl, hg, hb⟩
  | none =>
    by_cases hac : Acyclic g
    · obtain ⟨g'', hch, _⟩ := DAG.check_uncached_acyclic hg hc hac
      rw [h] at hch
      exact absurd (congrArg Prod.fst hch) (by simp)
    · obtain ⟨g'', hch, hv, hp, hd, ht, _, hwf⟩ := DAG.check_uncached_cyclic hg hc hac
      rw [h] at hch
      have he : e = DAGError.cycleDetected := by simpa using congrArg Prod.fst hch
      have hgg : g' = g'' := by simpa using congrArg Prod.snd hch
      subst hgg
      exact ⟨he, hv, hp, hd, ht, hwf, hac⟩

/-- `check` succeeding certifies acyclicity (first component form, usable by
`decide` on concrete graphs). -/
theorem acyclic_of_check_fst {g : DAG} (hg : WF g) (h : (g.check).1 = none) :
    Acyclic g := by
  match hch : g.check with
  | (none, g') => exact (DAG.check_ok_fields hg hch).2.2.2.2.2.1
  | (some e, g') =>
    rw [hch] at h
    exact absurd h (by simp)

/-! ## `get_closure`: the fixed-point loop -/

/-- The fixed-point loop reaches a predecessor-closed superset of its start,
inside any predecessor-closed predicate containing the start, provided the
fuel exceeds the possible growth. -/
theorem closureLoop_spec {g : DAG} (hg : WF g) (Q : Nat → Prop)
    (hQ : ∀ n, Q n → ∀ p ∈ g.vertex_predecessors n, Q p) :
    ∀ (fuel : Nat) (vis clo : Finset Nat),
    vis ⊆ clo → (∀ n ∈ vis, g.vertex_predecessors n ⊆ clo) →
    clo ⊆ g.verts.toFinset → (∀ u ∈ clo, Q u) →
    g.verts.toFinset.card < fuel + clo.card →
    clo ⊆ g.closureLoop fuel vis clo ∧
    (∀ n ∈ g.closureLoop fuel vis clo,
      g.vertex_predecessors n ⊆ g.closureLoop fuel vis clo) ∧
    (∀ u ∈ g.closureLoop fuel vis clo, Q u) := by
  intro fuel
  induction fuel with
  | zero =>
    intro vis clo _ _ h3 _ hfuel
    exact absurd (Finset.card_le_card h3) (by omega)
  | succ fuel ih =>
    intro vis clo h1 h2 h3 h4 hfuel
    have hstep1 : (g.closureStep vis clo).1 = vis ∪ (clo \ vis) := rfl
    have hstep2 : (g.closureStep vis clo).2 = clo ∪ (clo \ vis).biUnion g.vertex_predecessors := rfl
    have hvis' : vis ∪ (clo \ vis) = clo := Finset.union_sdiff_of_subset h1
    have hsub : clo ⊆ (g.closureStep vis clo).2 := by
      rw [hstep2]
      exact Finset.subset_union_left
    have hpredsub : ∀ n ∈ clo, g.vertex_predecessors n ⊆ (g.closureStep vis clo).2 := by
      intro n hn p hp
      by_cases hnv : n ∈ vis
      · exact hsub (h2 n hnv hp)
      · rw [hstep2]
        apply Finset.mem_union_right
        exact Finset.mem_biUnion.mpr ⟨n, Finset.mem_sdiff.mpr ⟨hn, hnv⟩, hp⟩
    by_cases hcard : (g.closureStep vis clo).2.card = clo.card
    · have heq : (g.closureStep vis clo).2 = clo :=
        (Finset.eq_of_subset_of_card_le hsub (le_of_eq hcard)).symm
      have hres : g.closureLoop (fuel + 1) vis clo = (g.closureStep vis clo).2 := by
        unfold DAG.closureLoop
        rw [if_pos hcard]
      rw [hres, heq]
      refine ⟨Finset.Subset.refl clo, ?_, h4⟩
      intro n hn
      have := hpredsub n hn
      rwa [heq] at this
    · have hres : g.closureLoop (fuel + 1) vis clo =
          g.closureLoop fuel (g.closureStep vis clo).1 (g.closureStep vis clo).2 := by
        conv_lhs => rw [DAG.closureLoop]
        simp only [if_neg hcard]
      have hgrow : clo.card < (g.closureStep vis clo).2.card :=
        lt_of_le_of_ne (Finset.card_le_card hsub) (fun h => hcard h.symm)
      have h3' : (g.closureStep vis clo).2 ⊆ g.verts.toFinset := by
        rw [hstep2]
        apply Finset.union_subset h3
        intro p hp
        obtain ⟨n, _, hpn⟩ := Finset.mem_biUnion.mp hp
        exact List.mem_toFinset.mpr (hg.mem_of_pred hpn)
      have h4' : ∀ u ∈ (g.closureStep vis clo).2, Q u := by
        intro u hu
        rw [hstep2] at hu
        rcases Finset.mem_union.mp hu with hu | hu
        · exact h4 u hu
        · obtain ⟨n, hn, hpn⟩ := Finset.mem_biUnion.mp hu
          exact hQ n (h4 n (Finset.mem_sdiff.mp hn).1) u hpn
      have h1' : (g.closureStep vis clo).1 ⊆ (g.closureStep vis clo).2 := by
        rw [hstep1, hvis']
        exact hsub
      have h2' : ∀ n ∈ (g.closureStep vis clo).1,
          g.vertex_predecessors n ⊆ (g.closureStep vis clo).2 := by
        intro n hn
        rw [hstep1, hvis'] at hn
        exact hpredsub n hn
      have hfuel' : g.verts.toFinset.card < fuel + (g.closureStep vis clo).2.card := by
        omega
      obtain ⟨c1, c2, c3⟩ := ih (g.closureStep vis clo).1 (g.closureStep vis clo).2
        h1' h2' h3' h4' hfuel'
      rw [hres]
      exact ⟨Finset.Subset.trans hsub c1, c2, c3⟩

/-- `get_closure` on a well-formed acyclic graph: success, and the returned
set is exactly the set of strict transitive predecessors of the vertex. -/
theorem DAG.get_closure_spec {g : DAG} (hg : WF g) (hac : Acyclic g) (v : Nat) :
    ∃ S g', g.get_closure v = (none, S, g') ∧
      (∀ u, u ∈ S ↔ PredPath g v u) ∧ v ∉ S ∧
      g'.verts = g.verts ∧ g'.vertex_predecessors = g.vertex_predecessors ∧
      g'.vertex_data = g.vertex_data ∧ g'.tags = g.tags ∧ WF g' ∧
      g'.has_cycle = some false := by
  match hch : g.check with
  | (some e, gbad) =>
    exact absurd ((DAG.check_err_fields hg hch).2.2.2.2.2.2) (by simpa using hac)
  | (none, g') =>
    obtain ⟨hv, hp, hd, ht, hwf, _, hhc⟩ := DAG.check_ok_fields hg hch
    have hac' : Acyclic g' := Acyclic.congr_rel hp hac
    set R := g'.closureLoop (g'.verts.length + 1) ∅ (g'.get_predecessors v) with hR
    have hfuel : g'.verts.toFinset.card <
        (g'.verts.length + 1) + (g'.get_predecessors v).card := by
      have := g'.verts.toFinset_card_le
      omega
    have hclo_sub : g'.get_predecessors v ⊆ g'.verts.toFinset := by
      intro p hp'
      exact List.mem_toFinset.mpr (hwf.mem_of_pred hp')
    obtain ⟨c1, c2, c3⟩ := closureLoop_spec hwf (fun u => PredPath g' v u)
      (fun n hn p hp' => hn.snoc hp') (g'.verts.length + 1) ∅ (g'.get_predecessors v)
      (Finset.empty_subset _) (by intro n hn; exact absurd hn (Finset.not_mem_empty n))
      hclo_sub (fun u hu => PredPath.single hu) hfuel
    have hiff : ∀ u, u ∈ R ↔ PredPath g v u := by
      intro u
      constructor
      · intro hu
        exact PredPath.congr_preds hp.symm (c3 u hu)
      · intro hpath
        have hpath' : PredPath g' v u := PredPath.congr_preds hp hpath
        have hstart : ∀ a b, PredPath g' a b → (a = v ∨ a ∈ R) → b ∈ R := by
          intro a b hab
          induction hab with
          | @single x y hy =>
            intro hx
            rcases hx with rfl | hx
            · exact c1 hy
            · exact c2 x hx hy
          | @step x y w hy _ ihy =>
            intro hx
            apply ihy
            right
            rcases hx with rfl | hx
            · exact c1 hy
            · exact c2 x hx hy
        exact hstart v u hpath' (Or.inl rfl)
    refine ⟨R, g', ?_, hiff, ?_, hv, hp, hd, ht, hwf, hhc⟩
    · unfold DAG.get_closure
      rw [hch]
    · intro hvR
      exact hac v ((hiff v).mp hvR)

/-- `get_closure` on a well-formed cyclic graph with no cached verdict: the
cycle error propagates from `check`, fields preserved. -/
theorem DAG.get_closure_cyclic {g : DAG} (hg : WF g) (hac : ¬ Acyclic g)
    (hn : g.has_cycle = none) (v : Nat) :
    ∃ g', g.get_closure v = (some .cycleDetected, ∅, g') ∧
      g'.verts = g.verts ∧ g'.vertex_predecessors = g.vertex_predecessors ∧
      g'.vertex_data = g.vertex_data ∧ g'.tags = g.tags ∧
      g'.has_cycle = some true ∧ WF g' := by
  obtain ⟨g', hch, hv, hp, hd, ht, hhc, hwf⟩ := DAG.check_uncached_cyclic hg hn hac
  refine ⟨g', ?_, hv, hp, hd, ht, hhc, hwf⟩
  unfold DAG.get_closure
  rw [hch]

/-! ## `update_vertex`: behavior lemmas -/

/-- A graph whose caches are cleared is well-formed as soon as its keys and
predecessors are. -/
theorem WF_of_cleared {g : DAG} (hn : g.verts.Nodup)
    (hpm : ∀ v ∈ g.verts, ∀ p ∈ g.vertex_predecessors v, p ∈ g.verts)
    (hpo : ∀ v, v ∉ g.verts → g.vertex_predecessors v = ∅)
    (hs : g.vertex_successors = none) (hh : g.has_cycle = none) : WF g := by
  refine ⟨hn, hpm, hpo, ?_, ?_⟩
  · intro c hc
    rw [hs] at hc
    cases hc
  · intro b hb
    rw [hh] at hb
    cases hb

theorem WF_set_predecessors {g : DAG} (hg : WF g) {v : Nat} {P : Finset Nat}
    (hv : v ∈ g.verts) (hP : ∀ p ∈ P, p ∈ g.verts) :
    WF (g.set_predecessors v P) := by
  apply WF_of_cleared
  · exact hg.nodup
  · intro x hx p hp
    by_cases hxv : x = v
    · subst hxv
      rw [show (g.set_predecessors x P).vertex_predecessors x = P by
        simp [DAG.set_predecessors]] at hp
      exact hP p hp
    · rw [show (g.set_predecessors v P).vertex_predecessors x = g.vertex_predecessors x by
        simp [DAG.set_predecessors, Function.update_noteq hxv]] at hp
      exact hg.preds_mem x hx p hp
  · intro x hx
    have hxv : x ≠ v := fun h => hx (h ▸ hv)
    rw [show (g.set_predecessors v P).vertex_predecessors x = g.vertex_predecessors x by
      simp [DAG.set_predecessors, Function.update_noteq hxv]]
    exact hg.preds_outside x hx
  · rfl
  · rfl

/-- Checked update of an existing vertex whose provisional predecessor union
creates a cycle: the cycle error, and every observable field rolled back. -/
theorem DAG.update_checked_existing_err {g : DAG} {v : Nat} {d : Option Nat} {P : List Nat}
    (hg : WF g) (hv : v ∈ g.verts) (hP : ∀ p ∈ P, p ∈ g.verts)
    (hcyc : ¬ Acyclic (g.set_predecessors v (g.vertex_predecessors v ∪ P.toFinset))) :
    ∃ gf, g.update_vertex v d (some P) true = (some .cycleDetected, gf) ∧
      gf.verts = g.verts ∧ gf.vertex_predecessors = g.vertex_predecessors ∧
      gf.vertex_data = g.vertex_data ∧ gf.tags = g.tags ∧
      gf.vertex_successors = none ∧ gf.has_cycle = none ∧ WF gf := by
  have hwf1 : WF (g.set_predecessors v (g.vertex_predecessors v ∪ P.toFinset)) := by
    apply WF_set_predecessors hg hv
    intro p hp
    rcases Finset.mem_union.mp hp with hp | hp
    · exact hg.preds_mem v hv p hp
    · exact hP p (List.mem_toFinset.mp hp)
  obtain ⟨g2, hclo, hv2, hp2, hd2, ht2, hhc2, hwf2⟩ :=
    DAG.get_closure_cyclic hwf1 hcyc rfl v
  have hverts : (g2.set_predecessors v (g.vertex_predecessors v)).verts = g.verts := hv2
  have hpreds : (g2.set_predecessors v (g.vertex_predecessors v)).vertex_predecessors =
      g.vertex_predecessors := by
    show Function.update g2.vertex_predecessors v (g.vertex_predecessors v) =
      g.vertex_predecessors
    rw [hp2]
    show Function.update
      (Function.update g.vertex_predecessors v (g.vertex_predecessors v ∪ P.toFinset)) v
      (g.vertex_predecessors v) = g.vertex_predecessors
    rw [Function.update_idem, Function.update_eq_self]
  have hdata : (g2.set_predecessors v (g.vertex_predecessors v)).vertex_data =
      g.vertex_data := hd2
  have htags : (g2.set_predecessors v (g.vertex_predecessors v)).tags = g.tags := ht2
  refine ⟨g2.set_predecessors v (g.vertex_predecessors v), ?_, hverts, hpreds, hdata, htags,
    rfl, rfl, ?_⟩
  · unfold DAG.update_vertex
    simp only [DAG.get_predecessors]
    rw [if_neg (by
      rintro ⟨-, k, hk, hk2⟩
      exact hk2 (hP k (List.mem_toFinset.mp (by simpa using hk))))]
    rw [if_neg (by simpa using hv)]
    simp only [Option.getD_some]
    rw [hclo]
    rfl
  · refine WF_of_cleared ?_ ?_ ?_ rfl rfl
    · rw [hverts]
      exact hg.nodup
    · rw [hverts, hpreds]
      exact hg.preds_mem
    · rw [hverts, hpreds]
      exact hg.preds_outside

/-- Checked update of an existing vertex whose provisional predecessor union
stays acyclic: success, predecessors extended, payload replaced only when one
is supplied, verdict cached valid. -/
theorem DAG.update_checked_existing_ok {g : DAG} {v : Nat} {d : Option Nat} {P : List Nat}
    (hg : WF g) (hv : v ∈ g.verts) (hP : ∀ p ∈ P, p ∈ g.verts)
    (hac1 : Acyclic (g.set_predecessors v (g.vertex_predecessors v ∪ P.toFinset))) :
    ∃ gf, g.update_vertex v d (some P) true = (none, gf) ∧
      gf.verts = g.verts ∧
      gf.vertex_predecessors =
        Function.update g.vertex_predecessors v (g.vertex_predecessors v ∪ P.toFinset) ∧
      gf.tags = g.tags ∧ gf.has_cycle = some false ∧ WF gf ∧
      (d = none → gf.vertex_data = g.vertex_data) := by
  have hwf1 : WF (g.set_predecessors v (g.vertex_predecessors v ∪ P.toFinset)) := by
    apply WF_set_predecessors hg hv
    intro p hp
    rcases Finset.mem_union.mp hp with hp | hp
    · exact hg.preds_mem v hv p hp
    · exact hP p (List.mem_toFinset.mp hp)
  obtain ⟨S, g2, hclo, _, _, hv2, hp2, hd2, ht2, hwf2, hhc2⟩ :=
    DAG.get_closure_spec hwf1 hac1 v
  have hgf : ∀ gf, gf = (match d with
      | some dd => { g2 with vertex_data := Function.update g2.vertex_data v (some dd) }
      | none => g2) →
      gf.verts = g.verts ∧
      gf.vertex_predecessors =
        Function.update g.vertex_predecessors v (g.vertex_predecessors v ∪ P.toFinset) ∧
      gf.tags = g.tags ∧ gf.has_cycle = some false ∧ WF gf ∧
      (d = none → gf.vertex_data = g.vertex_data) := by
    intro gf hgf
    cases d with
    | some dd =>
      have heq : gf = { g2 with vertex_data := Function.update g2.vertex_data v (some dd) } :=
        hgf
      subst heq
      exact ⟨hv2, hp2, ht2, hhc2,
        @WF_congr g2 { g2 with vertex_data := Function.update g2.vertex_data v (some dd) }
          rfl rfl rfl rfl hwf2,
        fun h => nomatch h⟩
    | none =>
      have heq : gf = g2 := hgf
      subst heq
      exact ⟨hv2, hp2, ht2, hhc2, hwf2, fun _ => hd2⟩
  refine ⟨_, ?_, hgf _ rfl⟩
  unfold DAG.update_vertex
  simp only [DAG.get_predecessors]
  rw [if_neg (by
    rintro ⟨-, k, hk, hk2⟩
    exact hk2 (hP k (List.mem_toFinset.mp (by simpa using hk))))]
  rw [if_neg (by simpa using hv)]
  simp only [Option.getD_some]
  rw [hclo]
  rfl

/-- Checked insertion of a new vertex (all supplied predecessors existing):
always succeeds, no cycle check runs. -/
theorem DAG.update_checked_new {g : DAG} {v : Nat} {d : Option Nat} {P : Option (List Nat)}
    (hv : v ∉ g.verts) (hP : ∀ p ∈ P.getD [], p ∈ g.verts) :
    g.update_vertex v d P true = (none,
      { verts := g.verts ++ [v]
        vertex_data := Function.update g.vertex_data v d
        tags := g.tags
        vertex_predecessors := Function.update g.vertex_predecessors v (P.getD []).toFinset
        vertex_successors := none
        has_cycle := none }) := by
  unfold DAG.update_vertex
  rw [if_neg (by
    rintro ⟨-, k, hk, hk2⟩
    exact hk2 (hP k (List.mem_toFinset.mp (by simpa using hk))))]
  rw [if_pos hv]
  rfl

/-- Unchecked insertion of a new vertex. -/
theorem DAG.update_unchecked_new {g : DAG} {v : Nat} {d : Option Nat} {P : Option (List Nat)}
    (hv : v ∉ g.verts) :
    g.update_vertex v d P false = (none,
      { verts := g.verts ++ [v]
        vertex_data := Function.update g.vertex_data v d
        tags := g.tags
        vertex_predecessors := Function.update g.vertex_predecessors v (P.getD []).toFinset
        vertex_successors := none
        has_cycle := none }) := by
  unfold DAG.update_vertex
  rw [if_neg (by rintro ⟨h, -⟩; cases h)]
  rw [if_pos hv]
  rfl

/-- Unchecked update of an existing vertex. -/
theorem DAG.update_unchecked_existing {g : DAG} {v : Nat} {d : Option Nat}
    {P : Option (List Nat)} (hv : v ∈ g.verts) :
    g.update_vertex v d P false = (none,
      { verts := g.verts
        vertex_data := match d with
          | some dd => Function.update g.vertex_data v (some dd)
          | none => g.vertex_data
        tags := g.tags
        vertex_predecessors :=
          Function.update g.vertex_predecessors v
            (g.vertex_predecessors v ∪ (P.getD []).toFinset)
        vertex_successors := none
        has_cycle := none }) := by
  unfold DAG.update_vertex
  rw [if_neg (by rintro ⟨h, -⟩; cases h)]
  rw [if_neg (by simpa using hv)]
  match d with
  | some dd => rfl
  | none => rfl

/-! ## Claim theorems: iteration, check, upsert, closure, context -/

/-- An `IsTopo` continuation disjoint from its visited set orders every
predecessor strictly before its dependent. -/
theorem isTopo_index_lt {g : DAG} {s : Finset Nat} {l : List Nat}
    (ht : IsTopo g s l) (hnd : l.Nodup) (hdisj : ∀ x ∈ s, x ∉ l) :
    ∀ (i j : Fin l.length), l.get i ∈ g.vertex_predecessors (l.get j) →
      (i : Nat) < (j : Nat) := by
  induction ht with
  | nil s => intro i; exact absurd i.isLt (by simp)
  | @cons s v l' hpred htail ih =>
    intro i j h
    rcases i with ⟨iv, hi⟩
    rcases j with ⟨jv, hj⟩
    cases jv with
    | zero =>
      exfalso
      have hget : (v :: l').get ⟨0, hj⟩ = v := rfl
      rw [hget] at h
      exact hdisj _ (hpred _ h) (List.get_mem _ iv hi)
    | succ jv' =>
      cases iv with
      | zero => simp
      | succ iv' =>
        have hnd' : l'.Nodup := (List.nodup_cons.mp hnd).2
        have hdisj' : ∀ x ∈ insert v s, x ∉ l' := by
          intro x hx
          rcases Finset.mem_insert.mp hx with rfl | hx
          · exact (List.nodup_cons.mp hnd).1
          · intro hxl
            exact hdisj x hx (List.mem_cons_of_mem v hxl)
        have h' : l'.get ⟨iv', by simpa using hi⟩ ∈
            g.vertex_predecessors (l'.get ⟨jv', by simpa using hj⟩) := h
        have := ih hnd' hdisj' ⟨iv', by simpa using hi⟩ ⟨jv', by simpa using hj⟩ h'
        simpa using Nat.succ_lt_succ this

/-- C1: on every well-formed graph with an acyclic predecessor relation,
exhausting the topological iterator in strict mode (busy state disabled)
yields a completed order containing every vertex exactly once, in which every
predecessor occurs strictly before each vertex it precedes. -/
theorem C1_strict_iteration_topological (g : DAG) (hg : WF g) (hac : Acyclic g) :
    ∃ l it', runStrict (g.verts.length + 1) (DAGIterator.mk0 g false) =
        (.completed l, it') ∧
      (∀ v, v ∈ l ↔ v ∈ g.verts) ∧ l.Nodup ∧
      (∀ (i j : Fin l.length), l.get i ∈ g.vertex_predecessors (l.get j) →
        (i : Nat) < (j : Nat)) := by
  have hcard : (DAGIterator.mk0 g false).non_visited.card < g.verts.length + 1 := by
    have : g.verts.toFinset.card ≤ g.verts.length := g.verts.toFinset_card_le
    simpa [DAGIterator.mk0] using Nat.lt_succ_of_le this
  obtain ⟨l, it', hrun, _, _, hnd, htf, htopo⟩ :=
    runStrict_completes hg hac (g.verts.length + 1) (DAGIterator.mk0 g false)
      (mk0_inv hg) hcard
  have hmk : (DAGIterator.mk0 g false).non_visited = g.verts.toFinset := rfl
  rw [hmk] at htf
  have hdisj : IsTopo g ∅ l := by
    have : g.verts.toFinset \ (DAGIterator.mk0 g false).non_visited = ∅ := by
      rw [hmk, Finset.sdiff_self]
    rwa [this] at htopo
  refine ⟨l, it', hrun, ?_, hnd, ?_⟩
  · intro v
    rw [← List.mem_toFinset, htf, List.mem_toFinset]
  · exact isTopo_index_lt hdisj hnd (by intro x hx; exact absurd hx (Finset.not_mem_empty x))

/-- C2: under well-formedness (existing predecessors, coherent caches),
`check` fails with the cycle error exactly when the predecessor relation has
a cycle; a cached-valid graph is returned unchanged with no error, a
cached-invalid graph immediately yields the cycle error with no traversal. -/
theorem C2_check_cycle_detection (g : DAG) (hg : WF g) :
    ((g.check).1 = some DAGError.cycleDetected ↔ ¬ Acyclic g) ∧
    (g.has_cycle = some false → g.check = (none, g)) ∧
    (g.has_cycle = some true → g.check = (some DAGError.cycleDetected, g)) := by
  refine ⟨⟨?_, ?_⟩, fun h => DAG.check_cached_valid h, fun h => DAG.check_cached_invalid h⟩
  · intro h
    match hch : g.check with
    | (none, g') =>
      rw [hch] at h
      exact absurd h (by simp)
    | (some e, g') => exact (DAG.check_err_fields hg hch).2.2.2.2.2.2
  · intro hac
    match hch : g.check with
    | (none, g') => exact absurd (DAG.check_ok_fields hg hch).2.2.2.2.2.1 hac
    | (some e, g') =>
      obtain ⟨he, -⟩ := DAG.check_err_fields hg hch
      simp [he]

/-- C3: a validated upsert of an existing vertex whose added predecessors
would create a cycle fails with the cycle error and leaves every observable
component — predecessor sets, vertex list, payloads, tags — exactly as
before the call. -/
theorem C3_checked_upsert_rollback (g : DAG) (v : Nat) (d : Option Nat) (P : List Nat)
    (hg : WF g) (hv : v ∈ g.verts) (hP : ∀ p ∈ P, p ∈ g.verts)
    (hcyc : ¬ Acyclic (g.set_predecessors v (g.vertex_predecessors v ∪ P.toFinset))) :
    ∃ gf, g.update_vertex v d (some P) true = (some DAGError.cycleDetected, gf) ∧
      gf.vertex_predecessors = g.vertex_predecessors ∧
      gf.verts = g.verts ∧ gf.vertex_data = g.vertex_data ∧ gf.tags = g.tags := by
  obtain ⟨gf, heq, hverts, hpreds, hdata, htags, -⟩ :=
    DAG.update_checked_existing_err hg hv hP hcyc
  exact ⟨gf, heq, hpreds, hverts, hdata, htags⟩

/-- C4: on a well-formed acyclic graph, `get_closure` succeeds and returns
exactly the set of vertices transitively reachable from the vertex along
predecessor edges, a set that never contains the vertex itself. -/
theorem C4_get_closure_reachability (g : DAG) (v : Nat) (hg : WF g) (hac : Acyclic g) :
    ∃ S g', g.get_closure v = (none, S, g') ∧
      (∀ u, u ∈ S ↔ PredPath g v u) ∧ v ∉ S := by
  obtain ⟨S, g', heq, hiff, hv, -⟩ := DAG.get_closure_spec hg hac v
  exact ⟨S, g', heq, hiff, hv⟩

/-- The three-vertex chain of claim C5: `A = 0` depends on `B = 1`, which
depends on `C = 2`; only `C` is tagged `"x"`. -/
def chainG : DAG :=
  { verts := [2, 1, 0]
    vertex_data := fun _ => none
    tags := fun v => if v = 2 then some "x" else none
    vertex_predecessors := fun v => if v = 0 then {1} else if v = 1 then {2} else ∅
    vertex_successors := none
    has_cycle := none }

/-- C5: on the chain `A → B → C` with only `C` tagged `"x"`, `get_context`
returns `[(2, C, "x")]` from `A`, `[(1, C, "x")]` from `B`, `[(0, C, "x")]`
from `C`, and the empty list from `A` under `max_distance = 1`. -/
theorem C5_get_context_chain :
    (chainG.get_context 0 none none false).1 = none ∧
    (chainG.get_context 0 none none false).2.1 = [(2, 2, "x")] ∧
    (chainG.get_context 1 none none false).2.1 = [(1, 2, "x")] ∧
    (chainG.get_context 2 none none false).2.1 = [(0, 2, "x")] ∧
    (chainG.get_context 0 (some 1) none false).1 = none ∧
    (chainG.get_context 0 (some 1) none false).2.1 = [] := by
  decide

/-- C8: `leave` succeeds exactly on a vertex currently in the BUSY state,
switching it to VISITED and decrementing the pending counter of each of its
successors (and of nothing else); on any other state it fails with the
protocol fault. -/
theorem C8_leave_protocol (it : DAGIterator) (v : Nat) (hwf : WF it.dag) :
    (it.states v = DAGIterator.BUSY →
      ∃ it', it.leave v = .ok it' ∧
        it'.states v = DAGIterator.VISITED ∧
        (∀ k, k ≠ v → it'.states k = it.states k) ∧
        (∀ k, k ∈ it.dag.computeSuccs v → it'.pred_number k = it.pred_number k - 1) ∧
        (∀ k, k ∉ it.dag.computeSuccs v → it'.pred_number k = it.pred_number k) ∧
        it'.non_visited = it.non_visited ∧
        it'.enable_busy_state = it.enable_busy_state) ∧
    (¬ it.states v = DAGIterator.BUSY → it.leave v = .error DAGError.protocolFault) := by
  constructor
  · intro hbusy
    have hsucc : (it.dag.get_successors v).1 = it.dag.computeSuccs v :=
      DAG.get_successors_fst hwf v
    refine ⟨{ it with
        dag := (it.dag.get_successors v).2
        states := Function.update it.states v DAGIterator.VISITED
        pred_number := fun k =>
          if k ∈ (it.dag.get_successors v).1 then it.pred_number k - 1
          else it.pred_number k }, ?_, ?_, ?_, ?_, ?_, rfl, rfl⟩
    · unfold DAGIterator.leave
      rw [if_pos hbusy]
    · simp [Function.update_same]
    · intro k hk
      simp [Function.update_noteq hk]
    · intro k hk
      simp only [hsucc, if_pos hk]
    · intro k hk
      simp only [hsucc, if_neg hk]
  · intro hnot
    unfold DAGIterator.leave
    rw [if_neg hnot]

/-- C9: writing a predecessor set clears both the successor cache and the
validity cache; and on a well-formed graph every `get_successors` read is the
exact inverse of the current predecessor sets. -/
theorem C9_cache_invalidation (g : DAG) (v x k : Nat) (P : Finset Nat) (hg : WF g) :
    (g.set_predecessors v P).vertex_successors = none ∧
    (g.set_predecessors v P).has_cycle = none ∧
    (k ∈ (g.get_successors x).1 ↔ x ∈ g.vertex_predecessors k) := by
  refine ⟨rfl, rfl, ?_⟩
  rw [DAG.get_successors_fst hg, DAG.mem_computeSuccs]
  constructor
  · exact fun h => h.2
  · intro h
    refine ⟨?_, h⟩
    by_contra hk
    rw [hg.preds_outside k hk] at h
    exact Finset.not_mem_empty x h

/-- C10: for an id that is not a vertex, both `get_predecessors` and
`get_successors` answer the empty frozen set without failing, and
`get_successors` leaves every graph component (vertices, payloads,
predecessors, tags, validity cache) unchanged; `get_predecessors` performs no
write at all (it returns a bare value). -/
theorem C10_nonvertex_defaults (g : DAG) (v : Nat) (hg : WF g) (hv : v ∉ g.verts) :
    g.get_predecessors v = ∅ ∧ (g.get_successors v).1 = ∅ ∧
    (g.get_successors v).2.verts = g.verts ∧
    (g.get_successors v).2.vertex_data = g.vertex_data ∧
    (g.get_successors v).2.vertex_predecessors = g.vertex_predecessors ∧
    (g.get_successors v).2.tags = g.tags ∧
    (g.get_successors v).2.has_cycle = g.has_cycle := by
  obtain ⟨h1, h2, h3, h4, h5⟩ := DAG.get_successors_snd (g := g) v
  refine ⟨hg.preds_outside v hv, ?_, h1, h2, h4, h3, h5⟩
  rw [DAG.get_successors_fst hg]
  apply Finset.eq_empty_of_forall_not_mem
  intro k hk
  obtain ⟨hkv, hvk⟩ := DAG.mem_computeSuccs.mp hk
  exact hv (hg.mem_of_pred hvk)

/-! ## Concrete graphs and witnesses -/

/-- A small well-formed graph: vertex `0` depends on vertex `1`. -/
def exG : DAG :=
  { verts := [1, 0]
    vertex_data := fun _ => none
    tags := fun _ => none
    vertex_predecessors := fun v => if v = 0 then {1} else ∅
    vertex_successors := none
    has_cycle := none }

theorem exG_WF : WF exG := by
  refine WF_of_cleared (by decide) (by decide) ?_ rfl rfl
  intro v hv
  have h0 : ¬ v = 0 := by
    intro h
    subst h
    exact hv (by decide)
  simp [exG, h0]

theorem exG_acyclic : Acyclic exG :=
  acyclic_of_check_fst exG_WF (by decide)

theorem C1_strict_iteration_topological_witness :
    WF exG ∧ Acyclic exG ∧
    (∃ l it', runStrict (exG.verts.length + 1) (DAGIterator.mk0 exG false) =
        (.completed l, it') ∧
      (∀ v, v ∈ l ↔ v ∈ exG.verts) ∧ l.Nodup ∧
      (∀ (i j : Fin l.length), l.get i ∈ exG.vertex_predecessors (l.get j) →
        (i : Nat) < (j : Nat))) :=
  ⟨exG_WF, exG_acyclic, C1_strict_iteration_topological exG exG_WF exG_acyclic⟩

theorem C2_check_cycle_detection_witness :
    WF exG ∧
    (((exG.check).1 = some DAGError.cycleDetected ↔ ¬ Acyclic exG) ∧
    (exG.has_cycle = some false → exG.check = (none, exG)) ∧
    (exG.has_cycle = some true → exG.check = (some DAGError.cycleDetected, exG))) :=
  ⟨exG_WF, C2_check_cycle_detection exG exG_WF⟩

/-- Adding predecessor `0` to vertex `1` of `exG` closes the two-cycle
`0 → 1 → 0`. -/
theorem exG_update_cyclic :
    ¬ Acyclic (exG.set_predecessors 1 (exG.vertex_predecessors 1 ∪ [0].toFinset)) := by
  intro hac
  apply hac 0
  have h1 : (1 : Nat) ∈
      (exG.set_predecessors 1 (exG.vertex_predecessors 1 ∪ [0].toFinset)).vertex_predecessors 0 := by
    decide
  have h2 : (0 : Nat) ∈
      (exG.set_predecessors 1 (exG.vertex_predecessors 1 ∪ [0].toFinset)).vertex_predecessors 1 := by
    decide
  exact PredPath.step h1 (PredPath.single h2)

theorem C3_checked_upsert_rollback_witness :
    WF exG ∧ (1 ∈ exG.verts) ∧ (∀ p ∈ [0], p ∈ exG.verts) ∧
    ¬ Acyclic (exG.set_predecessors 1 (exG.vertex_predecessors 1 ∪ [0].toFinset)) ∧
    (∃ gf, exG.update_vertex 1 none (some [0]) true = (some DAGError.cycleDetected, gf) ∧
      gf.vertex_predecessors = exG.vertex_predecessors ∧
      gf.verts = exG.verts ∧ gf.vertex_data = exG.vertex_data ∧ gf.tags = exG.tags) :=
  ⟨exG_WF, by decide, by decide, exG_update_cyclic,
    C3_checked_upsert_rollback exG 1 none [0] exG_WF (by decide) (by decide)
      exG_update_cyclic⟩

theorem C4_get_closure_reachability_witness :
    WF exG ∧ Acyclic exG ∧
    (∃ S g', exG.get_closure 0 = (none, S, g') ∧
      (∀ u, u ∈ S ↔ PredPath exG 0 u) ∧ 0 ∉ S) :=
  ⟨exG_WF, exG_acyclic, C4_get_closure_reachability exG 0 exG_WF exG_acyclic⟩

/-- An iterator state over `exG` in which vertex `1` is BUSY. -/
def exIt : DAGIterator :=
  { dag := exG
    non_visited := ∅
    states := fun k => if k = 1 then DAGIterator.BUSY else DAGIterator.NOT_VISITED
    enable_busy_state := true
    pred_number := fun _ => 0 }

theorem C8_leave_protocol_witness :
    WF exIt.dag ∧
    ((exIt.states 1 = DAGIterator.BUSY →
      ∃ it', exIt.leave 1 = .ok it' ∧
        it'.states 1 = DAGIterator.VISITED ∧
        (∀ k, k ≠ 1 → it'.states k = exIt.states k) ∧
        (∀ k, k ∈ exIt.dag.computeSuccs 1 → it'.pred_number k = exIt.pred_number k - 1) ∧
        (∀ k, k ∉ exIt.dag.computeSuccs 1 → it'.pred_number k = exIt.pred_number k) ∧
        it'.non_visited = exIt.non_visited ∧
        it'.enable_busy_state = exIt.enable_busy_state) ∧
    (¬ exIt.states 1 = DAGIterator.BUSY → exIt.leave 1 = .error DAGError.protocolFault)) :=
  ⟨exG_WF, C8_leave_protocol exIt 1 exG_WF⟩

theorem C9_cache_invalidation_witness :
    WF exG ∧
    (((exG.set_predecessors 0 ∅).vertex_successors = none ∧
     (exG.set_predecessors 0 ∅).has_cycle = none ∧
     (0 ∈ (exG.get_successors 1).1 ↔ 1 ∈ exG.vertex_predecessors 0))) :=
  ⟨exG_WF, C9_cache_invalidation exG 0 1 0 ∅ exG_WF⟩

theorem C10_nonvertex_defaults_witness :
    WF exG ∧ (5 ∉ exG.verts) ∧
    (exG.get_predecessors 5 = ∅ ∧ (exG.get_successors 5).1 = ∅ ∧
    (exG.get_successors 5).2.verts = exG.verts ∧
    (exG.get_successors 5).2.vertex_data = exG.vertex_data ∧
    (exG.get_successors 5).2.vertex_predecessors = exG.vertex_predecessors ∧
    (exG.get_successors 5).2.tags = exG.tags ∧
    (exG.get_successors 5).2.has_cycle = exG.has_cycle) :=
  ⟨exG_WF, by decide, C10_nonvertex_defaults exG 5 exG_WF (by decide)⟩

/-! ## `reverse_graph`: construction invariant and claim C6 -/

/-- Invariant of the graph being built by `reverse_graph`: key set `base`,
predecessor function `pf` (canonical outside `base`), tags shared with the
source, caches clear. -/
structure RevInv (g : DAG) (base : Finset Nat) (pf : Nat → Finset Nat) (acc : DAG) : Prop where
  nodup : acc.verts.Nodup
  vset : acc.verts.toFinset = base
  preds : acc.vertex_predecessors = pf
  canon : ∀ p, p ∉ base → pf p = ∅
  tagsEq : acc.tags = g.tags
  succNone : acc.vertex_successors = none
  hcNone : acc.has_cycle = none

theorem RevInv.cast {g : DAG} {base base' : Finset Nat} {pf pf' : Nat → Finset Nat}
    {acc : DAG} (h : RevInv g base pf acc) (hb : base = base') (hp : pf = pf') :
    RevInv g base' pf' acc := by
  subst hb
  subst hp
  exact h

/-- Effect of the inner loop of `reverseStep`: each processed predecessor
gains `node` in its predecessor set (created on demand), nothing else
changes. -/
theorem revInner {g : DAG} (node : Nat) :
    ∀ (E : List Nat) (acc : DAG) (base : Finset Nat) (pf : Nat → Finset Nat),
    RevInv g base pf acc →
    RevInv g (base ∪ E.toFinset)
      (fun p => if p ∈ E then pf p ∪ {node} else pf p)
      (E.foldl (fun a p => (a.update_vertex p none (some [node]) false).2) acc) := by
  intro E
  induction E with
  | nil =>
    intro acc base pf h
    refine h.cast (by simp) ?_
    funext p
    simp
  | cons p0 E' ih =>
    intro acc base pf h
    have hlist : (p0 :: E').foldl
        (fun a p => (a.update_vertex p none (some [node]) false).2) acc =
        E'.foldl (fun a p => (a.update_vertex p none (some [node]) false).2)
          ((acc.update_vertex p0 none (some [node]) false).2) := rfl
    rw [hlist]
    have hstep : RevInv g (insert p0 base)
        (Function.update pf p0 (pf p0 ∪ {node}))
        ((acc.update_vertex p0 none (some [node]) false).2) := by
      by_cases hp0 : p0 ∈ acc.verts
      · rw [DAG.update_unchecked_existing hp0]
        refine ⟨h.nodup, ?_, ?_, ?_, h.tagsEq, rfl, rfl⟩
        · rw [h.vset]
          have : p0 ∈ base := h.vset ▸ List.mem_toFinset.mpr hp0
          rw [Finset.insert_eq_self.mpr this]
        · show Function.update acc.vertex_predecessors p0
            (acc.vertex_predecessors p0 ∪ ([node] : List Nat).toFinset) =
            Function.update pf p0 (pf p0 ∪ {node})
          rw [h.preds]
          congr 1
        · intro p hp
          have hpb : p ∉ base := fun hb => hp (Finset.mem_insert_of_mem hb)
          have hpp0 : p ≠ p0 := fun he => hp (he ▸ Finset.mem_insert_self p0 base)
          rw [Function.update_noteq hpp0]
          exact h.canon p hpb
      · rw [DAG.update_unchecked_new hp0]
        have hpf0 : pf p0 = ∅ := h.canon p0 (fun hb => hp0 (by
          rw [← List.mem_toFinset, h.vset]
          exact hb))
        refine ⟨?_, ?_, ?_, ?_, h.tagsEq, rfl, rfl⟩
        · simp only [List.nodup_append, List.nodup_cons]
          exact ⟨h.nodup, by simp, by
            intro a ha hb
            simp only [List.mem_singleton] at hb
            exact hp0 (hb ▸ ha)⟩
        · rw [List.toFinset_append, h.vset]
          ext x
          simp [or_comm]
        · show Function.update acc.vertex_predecessors p0
            (([node] : List Nat).toFinset) =
            Function.update pf p0 (pf p0 ∪ {node})
          rw [h.preds, hpf0]
          congr 1
        · intro p hp
          have hpb : p ∉ base := fun hb => hp (Finset.mem_insert_of_mem hb)
          have hpp0 : p ≠ p0 := fun he => hp (he ▸ Finset.mem_insert_self p0 base)
          rw [Function.update_noteq hpp0]
          exact h.canon p hpb
    have := ih _ _ _ hstep
    refine this.cast ?_ ?_
    · ext x
      simp only [Finset.mem_union, Finset.mem_insert, List.mem_toFinset, List.mem_cons]
      tauto
    · funext p
      by_cases hpE : p ∈ E'
      · rw [if_pos hpE, if_pos (List.mem_cons_of_mem p0 hpE)]
        by_cases hpp0 : p = p0
        · subst hpp0
          rw [Function.update_same]
          ext x
          simp only [Finset.mem_union, Finset.mem_singleton]
          tauto
        · rw [Function.update_noteq hpp0]
      · rw [if_neg hpE]
        by_cases hpp0 : p = p0
        · subst hpp0
          rw [Function.update_same, if_pos (List.mem_cons_self p E')]
        · rw [Function.update_noteq hpp0,
            if_neg (by simp only [List.mem_cons]; tauto)]

/-- Effect of the whole construction loop of `reverse_graph`: every processed
node is inserted, and lands in the predecessor set of each of its own
predecessors. -/
theorem revOuter {g : DAG} (hg : WF g) :
    ∀ (L : List Nat), (∀ n ∈ L, n ∈ g.verts) →
    ∀ (acc : DAG) (base : Finset Nat) (pf : Nat → Finset Nat),
    RevInv g base pf acc →
    RevInv g (base ∪ L.toFinset ∪ L.toFinset.biUnion g.vertex_predecessors)
      (fun p => pf p ∪ (L.filter (fun n => p ∈ g.vertex_predecessors n)).toFinset)
      (L.foldl (DAG.reverseStep g) acc) := by
  intro L
  induction L with
  | nil =>
    intro _ acc base pf h
    refine h.cast (by simp) ?_
    funext p
    simp
  | cons node L' ih =>
    intro hL acc base pf h
    have hnode : node ∈ g.verts := hL node (List.mem_cons_self node L')
    have hL' : ∀ n ∈ L', n ∈ g.verts := fun n hn => hL n (List.mem_cons_of_mem node hn)
    have hlist : (node :: L').foldl (DAG.reverseStep g) acc =
        L'.foldl (DAG.reverseStep g) (DAG.reverseStep g acc node) := rfl
    rw [hlist]
    -- the head insertion leaves the predecessor function unchanged
    have hstep1 : RevInv g (base ∪ {node}) pf
        ((acc.update_vertex node (g.vertex_data node) none false).2) := by
      by_cases hn : node ∈ acc.verts
      · rw [DAG.update_unchecked_existing hn]
        have hnb : node ∈ base := h.vset ▸ List.mem_toFinset.mpr hn
        refine ⟨h.nodup, ?_, ?_, ?_, h.tagsEq, rfl, rfl⟩
        · rw [h.vset]
          ext x
          simp only [Finset.mem_union, Finset.mem_singleton]
          exact ⟨fun hx => Or.inl hx, fun hx => hx.elim id (fun he => he ▸ hnb)⟩
        · show Function.update acc.vertex_predecessors node
            (acc.vertex_predecessors node ∪ (Option.getD none []).toFinset) = pf
          rw [h.preds]
          simp only [Option.getD_none, List.toFinset_nil, Finset.union_empty]
          exact Function.update_eq_self node pf
        · intro p hp
          exact h.canon p (fun hb => hp (Finset.mem_union_left _ hb))
      · rw [DAG.update_unchecked_new hn]
        have hnb : node ∉ base := fun hb => hn (by
          rw [← List.mem_toFinset, h.vset]
          exact hb)
        refine ⟨?_, ?_, ?_, ?_, h.tagsEq, rfl, rfl⟩
        · simp only [List.nodup_append, List.nodup_cons]
          exact ⟨h.nodup, by simp, by
            intro a ha hb
            simp only [List.mem_singleton] at hb
            exact hn (hb ▸ ha)⟩
        · rw [List.toFinset_append, h.vset]
          simp
        · show Function.update acc.vertex_predecessors node
            ((Option.getD none []).toFinset) = pf
          rw [h.preds]
          simp only [Option.getD_none, List.toFinset_nil]
          rw [← h.canon node hnb]
          exact Function.update_eq_self node pf
        · intro p hp
          exact h.canon p (fun hb => hp (Finset.mem_union_left _ hb))
    -- the inner loop distributes node into its predecessors' sets
    have hps : ∀ p, p ∈ g.verts.filter (fun q => q ∈ g.vertex_predecessors node) ↔
        p ∈ g.vertex_predecessors node := by
      intro p
      rw [List.mem_filter]
      simp only [decide_eq_true_eq]
      exact ⟨fun hx => hx.2, fun hx => ⟨hg.preds_mem node hnode p hx, hx⟩⟩
    have hinner := revInner node
      (g.verts.filter (fun q => q ∈ g.vertex_predecessors node)) _ _ _ hstep1
    have hstep : RevInv g (base ∪ {node} ∪ g.vertex_predecessors node)
        (fun p => if p ∈ g.vertex_predecessors node then pf p ∪ {node} else pf p)
        (DAG.reverseStep g acc node) := by
      refine hinner.cast ?_ ?_
      · ext x
        simp only [Finset.mem_union, List.mem_toFinset, hps]
      · funext p
        by_cases hp : p ∈ g.vertex_predecessors node
        · rw [if_pos ((hps p).mpr hp), if_pos hp]
        · rw [if_neg (fun hx => hp ((hps p).mp hx)), if_neg hp]
    have hfinal := ih hL' _ _ _ hstep
    refine hfinal.cast ?_ ?_
    · ext x
      simp only [Finset.mem_union, Finset.mem_biUnion, Finset.mem_singleton,
        List.mem_toFinset, List.mem_cons]
      constructor
      · rintro ((((hx | hx) | hx) | hx) | ⟨n, hn, hxn⟩)
        · exact Or.inl (Or.inl hx)
        · exact Or.inl (Or.inr (Or.inl hx))
        · exact Or.inr ⟨node, Or.inl rfl, hx⟩
        · exact Or.inl (Or.inr (Or.inr hx))
        · exact Or.inr ⟨n, Or.inr hn, hxn⟩
      · rintro ((hx | (hx | hx)) | ⟨n, (hn | hn), hxn⟩)
        · exact Or.inl (Or.inl (Or.inl (Or.inl hx)))
        · exact Or.inl (Or.inl (Or.inl (Or.inr hx)))
        · exact Or.inl (Or.inr hx)
        · exact Or.inl (Or.inl (Or.inr (hn ▸ hxn)))
        · exact Or.inr ⟨n, hn, hxn⟩
    · funext p
      by_cases hp : p ∈ g.vertex_predecessors node
      · rw [if_pos hp]
        have hfilter : (node :: L').filter (fun n => decide (p ∈ g.vertex_predecessors n)) =
            node :: L'.filter (fun n => decide (p ∈ g.vertex_predecessors n)) := by
          rw [List.filter_cons, if_pos (by simpa using hp)]
        rw [hfilter]
        ext x
        simp only [Finset.mem_union, Finset.mem_singleton, List.mem_toFinset, List.mem_cons]
        tauto
      · rw [if_neg hp]
        have hfilter : (node :: L').filter (fun n => decide (p ∈ g.vertex_predecessors n)) =
            L'.filter (fun n => decide (p ∈ g.vertex_predecessors n)) := by
          rw [List.filter_cons, if_neg (by simpa using hp)]
        rw [hfilter]

/-- A path in a graph whose predecessor function is the successor map of `g`
is a reversed path of `g`. -/
theorem predPath_reverse {g r : DAG} (hr : r.vertex_predecessors = g.computeSuccs) :
    ∀ a b, PredPath r a b → PredPath g b a := by
  intro a b h
  induction h with
  | single hm =>
    rw [hr] at hm
    exact PredPath.single (DAG.mem_computeSuccs.mp hm).2
  | step hm _ ih =>
    rw [hr] at hm
    exact ih.snoc (DAG.mem_computeSuccs.mp hm).2

/-- `reverse_graph` on a well-formed acyclic graph: success, and the result
has the same vertex set, the inverted predecessor relation (the successor
map), and the very same tag map. -/
theorem DAG.reverse_graph_spec {g : DAG} (hg : WF g) (hac : Acyclic g) :
    ∃ gm r, g.reverse_graph = (none, gm, r) ∧
      r.verts.toFinset = g.verts.toFinset ∧
      r.vertex_predecessors = g.computeSuccs ∧
      r.tags = g.tags ∧ WF r ∧ Acyclic r ∧
      gm = { g with has_cycle := some false } := by
  have hinv0 : RevInv g ∅ (fun _ => ∅) { DAG.init with tags := g.tags } := by
    refine ⟨List.nodup_nil, rfl, rfl, fun _ _ => rfl, rfl, rfl, rfl⟩
  have hrev := revOuter hg g.verts (fun n hn => hn) _ _ _ hinv0
  have hinv1 : RevInv g g.verts.toFinset g.computeSuccs
      (g.verts.foldl (DAG.reverseStep g) { DAG.init with tags := g.tags }) := by
    refine hrev.cast ?_ ?_
    · ext x
      simp only [Finset.mem_union, Finset.mem_biUnion, Finset.empty_union,
        List.mem_toFinset]
      constructor
      · rintro (hx | ⟨n, hn, hxn⟩)
        · exact hx
        · exact hg.mem_of_pred hxn
      · exact fun hx => Or.inl hx
    · funext p
      rw [Finset.empty_union]
      rfl
  generalize hr1 : g.verts.foldl (DAG.reverseStep g) { DAG.init with tags := g.tags } = r1
    at hinv1
  have hwf1 : WF r1 := by
    refine ⟨hinv1.nodup, ?_, ?_, ?_, ?_⟩
    · intro v _ p hp
      rw [hinv1.preds] at hp
      rw [← List.mem_toFinset, hinv1.vset, List.mem_toFinset]
      exact (DAG.mem_computeSuccs.mp hp).1
    · intro v hv
      rw [hinv1.preds]
      apply Finset.eq_empty_of_forall_not_mem
      intro k hk
      apply hv
      rw [← List.mem_toFinset, hinv1.vset]
      exact List.mem_toFinset.mpr (hg.mem_of_pred (DAG.mem_computeSuccs.mp hk).2)
    · intro c hc
      rw [hinv1.succNone] at hc
      cases hc
    · intro b hb
      rw [hinv1.hcNone] at hb
      cases hb
  have hac1 : Acyclic r1 := by
    intro v hv
    exact hac v (predPath_reverse hinv1.preds v v hv)
  obtain ⟨r2, hch, hv2, hp2, hd2, ht2, hhc2, hwf2⟩ :=
    DAG.check_uncached_acyclic hwf1 hinv1.hcNone hac1
  refine ⟨{ g with has_cycle := some false }, r2, ?_, ?_, ?_, ?_, hwf2, ?_, rfl⟩
  · unfold DAG.reverse_graph
    rw [hr1, hch]
  · rw [hv2]
    exact hinv1.vset
  · rw [hp2, hinv1.preds]
  · rw [ht2, hinv1.tagsEq]
  · intro v hv
    exact hac1 v (PredPath.congr_preds hp2.symm hv)

/-- C6: reversing a well-formed acyclic graph twice succeeds and reproduces
the vertex set, the predecessor relation, and the tag map exactly. -/
theorem C6_reverse_involution (g : DAG) (hg : WF g) (hac : Acyclic g) :
    ∃ gm r gm2 rr, g.reverse_graph = (none, gm, r) ∧
      r.reverse_graph = (none, gm2, rr) ∧
      rr.verts.toFinset = g.verts.toFinset ∧
      rr.vertex_predecessors = g.vertex_predecessors ∧
      rr.tags = g.tags := by
  obtain ⟨gm, r, heq1, hvr, hpr, htr, hwfr, hacr, -⟩ := DAG.reverse_graph_spec hg hac
  obtain ⟨gm2, rr, heq2, hvrr, hprr, htrr, -, -, -⟩ := DAG.reverse_graph_spec hwfr hacr
  refine ⟨gm, r, gm2, rr, heq1, heq2, ?_, ?_, ?_⟩
  · rw [hvrr, hvr]
  · rw [hprr]
    funext p
    ext x
    rw [DAG.mem_computeSuccs, hpr, DAG.mem_computeSuccs]
    have hxr : x ∈ r.verts ↔ x ∈ g.verts := by
      rw [← List.mem_toFinset, hvr, List.mem_toFinset]
    constructor
    · rintro ⟨-, -, hx⟩
      exact hx
    · intro hx
      refine ⟨hxr.mpr (hg.mem_of_pred hx), ?_, hx⟩
      by_contra hp
      rw [hg.preds_outside p hp] at hx
      exact Finset.not_mem_empty x hx
  · rw [htrr, htr]

theorem C6_reverse_involution_witness :
    WF exG ∧ Acyclic exG ∧
    (∃ gm r gm2 rr, exG.reverse_graph = (none, gm, r) ∧
      r.reverse_graph = (none, gm2, rr) ∧
      rr.verts.toFinset = exG.verts.toFinset ∧
      rr.vertex_predecessors = exG.vertex_predecessors ∧
      rr.tags = exG.tags) :=
  ⟨exG_WF, exG_acyclic, C6_reverse_involution exG exG_WF exG_acyclic⟩

/-! ## `orMerge`: loop invariants and claim C7 -/

theorem acyclic_of_no_edges {g : DAG} (h : ∀ p, g.vertex_predecessors p = ∅) :
    Acyclic g := by
  intro v hv
  cases hv with
  | single hm =>
    rw [h] at hm
    exact absurd hm (Finset.not_mem_empty _)
  | step hm _ =>
    rw [h] at hm
    exact absurd hm (Finset.not_mem_empty _)

/-- Passing `None` for the predecessors argument is the same as passing the
empty list. -/
theorem DAG.update_vertex_none_eq_nil (g : DAG) (v : Nat) (d : Option Nat) (e : Bool) :
    g.update_vertex v d none e = g.update_vertex v d (some []) e := rfl

/-- The first `orMerge` loop (`add_vertex` for every vertex of the left
graph): succeeds and appends the fresh vertices, no edges yet. -/
theorem orLoop1 : ∀ (L : List Nat) (s : DAG),
    (∀ p, s.vertex_predecessors p = ∅) → WF s →
    (∀ n ∈ L, n ∉ s.verts) → L.Nodup →
    ∃ s', foldE (fun g nid => g.add_vertex nid none none) L s = (none, s') ∧
      s'.verts = s.verts ++ L ∧ (∀ p, s'.vertex_predecessors p = ∅) ∧ WF s' := by
  intro L
  induction L with
  | nil =>
    intro s h0 hwf _ _
    exact ⟨s, rfl, by simp, h0, hwf⟩
  | cons nid L' ih =>
    intro s h0 hwf hnew hnd
    have hnid : nid ∉ s.verts := hnew nid (List.mem_cons_self nid L')
    have hstep : s.add_vertex nid none none = (none,
        { verts := s.verts ++ [nid]
          vertex_data := Function.update s.vertex_data nid none
          tags := s.tags
          vertex_predecessors := Function.update s.vertex_predecessors nid ∅
          vertex_successors := none
          has_cycle := none }) := by
      unfold DAG.add_vertex
      rw [if_neg hnid]
      have := DAG.update_checked_new (g := s) (v := nid) (d := none) (P := none)
        hnid (by intro p hp; cases hp)
      simpa using this
    have h0' : ∀ p, (Function.update s.vertex_predecessors nid ∅) p = ∅ := by
      intro p
      by_cases hp : p = nid
      · subst hp; rw [Function.update_same]
      · rw [Function.update_noteq hp]; exact h0 p
    have hwf' : WF (⟨s.verts ++ [nid], Function.update s.vertex_data nid none, s.tags,
        Function.update s.vertex_predecessors nid ∅, none, none⟩ : DAG) := by
      refine WF_of_cleared ?_ ?_ ?_ rfl rfl
      · simp only [List.nodup_append, List.nodup_cons]
        exact ⟨hwf.nodup, by simp, by
          intro a ha hb
          simp only [List.mem_singleton] at hb
          exact hnid (hb ▸ ha)⟩
      · intro v _ p hp
        have hp2 : p ∈ Function.update s.vertex_predecessors nid ∅ v := hp
        rw [h0' v] at hp2
        exact absurd hp2 (Finset.not_mem_empty p)
      · intro v _
        exact h0' v
    obtain ⟨s', hrun, hv', hp', hwf''⟩ := ih _ h0' hwf'
      (by
        intro n hn
        simp only [List.mem_append, List.mem_singleton]
        rintro (hns | hne)
        · exact hnew n (List.mem_cons_of_mem nid hn) hns
        · exact (List.nodup_cons.mp hnd).1 (hne ▸ hn))
      (List.nodup_cons.mp hnd).2
    refine ⟨s', ?_, ?_, hp', hwf''⟩
    · show foldE _ (nid :: L') s = (none, s')
      unfold foldE
      rw [hstep]
      exact hrun
    · rw [hv']
      simp

/-- The second `orMerge` loop (`update_vertex nid` for every vertex of the
right graph, no data, no predecessors): succeeds, adds the missing vertices,
still no edges. -/
theorem orLoop2 : ∀ (L : List Nat) (s : DAG),
    (∀ p, s.vertex_predecessors p = ∅) → WF s → L.Nodup →
    ∃ s', foldE (fun g nid => g.update_vertex nid none none true) L s = (none, s') ∧
      s'.verts = s.verts ++ L.filter (fun n => n ∉ s.verts) ∧
      (∀ p, s'.vertex_predecessors p = ∅) ∧ WF s' := by
  intro L
  induction L with
  | nil =>
    intro s h0 hwf _
    exact ⟨s, rfl, by simp, h0, hwf⟩
  | cons nid L' ih =>
    intro s h0 hwf hnd
    by_cases hnid : nid ∈ s.verts
    · -- existing vertex: the empty union and the closure check change nothing
      have hac1 : Acyclic (s.set_predecessors nid
          (s.vertex_predecessors nid ∪ ([] : List Nat).toFinset)) := by
        apply acyclic_of_no_edges
        intro p
        show Function.update s.vertex_predecessors nid
          (s.vertex_predecessors nid ∪ ([] : List Nat).toFinset) p = ∅
        by_cases hp : p = nid
        · subst hp
          rw [Function.update_same, h0]
          simp
        · rw [Function.update_noteq hp]
          exact h0 p
      obtain ⟨gf, hstep, hv1, hp1, ht1, hhc1, hwf1, hd1⟩ :=
        DAG.update_checked_existing_ok (d := none) hwf hnid
          (by intro p hp; cases hp) hac1
      have h0' : ∀ p, gf.vertex_predecessors p = ∅ := by
        intro p
        rw [hp1]
        by_cases hp : p = nid
        · subst hp
          rw [Function.update_same, h0]
          simp
        · rw [Function.update_noteq hp]
          exact h0 p
      obtain ⟨s', hrun, hv', hp', hwf''⟩ := ih gf h0' hwf1 (List.nodup_cons.mp hnd).2
      refine ⟨s', ?_, ?_, hp', hwf''⟩
      · show foldE _ (nid :: L') s = (none, s')
        unfold foldE
        rw [DAG.update_vertex_none_eq_nil, hstep]
        exact hrun
      · rw [hv', hv1]
        have hcons : (nid :: L').filter (fun n => decide (n ∉ s.verts)) =
            L'.filter (fun n => decide (n ∉ s.verts)) := by
          rw [List.filter_cons, if_neg (by simpa using hnid)]
        rw [hcons]
    · -- fresh vertex
      have hstep := DAG.update_checked_new (g := s) (v := nid) (d := none) (P := none)
        hnid (by intro p hp; cases hp)
      have h0' : ∀ p, (Function.update s.vertex_predecessors nid
          ((none : Option (List Nat)).getD []).toFinset) p = ∅ := by
        intro p
        by_cases hp : p = nid
        · subst hp
          rw [Function.update_same]
          rfl
        · rw [Function.update_noteq hp]
          exact h0 p
      have hwf' : WF (⟨s.verts ++ [nid], Function.update s.vertex_data nid none, s.tags,
          Function.update s.vertex_predecessors nid
            ((none : Option (List Nat)).getD []).toFinset, none, none⟩ : DAG) := by
        refine WF_of_cleared ?_ ?_ ?_ rfl rfl
        · simp only [List.nodup_append, List.nodup_cons]
          exact ⟨hwf.nodup, by simp, by
            intro a ha hb
            simp only [List.mem_singleton] at hb
            exact hnid (hb ▸ ha)⟩
        · intro v _ p hp
          have hp2 : p ∈ Function.update s.vertex_predecessors nid
              ((none : Option (List Nat)).getD []).toFinset v := hp
          rw [h0' v] at hp2
          exact absurd hp2 (Finset.not_mem_empty p)
        · intro v _
          exact h0' v
      obtain ⟨s', hrun, hv', hp', hwf''⟩ := ih _ h0' hwf' (List.nodup_cons.mp hnd).2
      refine ⟨s', ?_, ?_, hp', hwf''⟩
      · show foldE _ (nid :: L') s = (none, s')
        unfold foldE
        rw [hstep]
        exact hrun
      · rw [hv']
        have hfilter : L'.filter (fun n => decide (n ∉
            (⟨s.verts ++ [nid], Function.update s.vertex_data nid none, s.tags,
              Function.update s.vertex_predecessors nid
                ((none : Option (List Nat)).getD []).toFinset, none, none⟩ : DAG).verts)) =
            L'.filter (fun n => decide (n ∉ s.verts)) := by
          apply List.filter_congr
          intro x hx
          have hxnid : x ≠ nid := by
            intro he
            exact (List.nodup_cons.mp hnd).1 (he ▸ hx)
          show decide (x ∉ s.verts ++ [nid]) = decide (x ∉ s.verts)
          simp only [List.mem_append, List.mem_singleton, decide_not]
          congr 1
          simp [hxnid]
        rw [hfilter]
        have : (nid :: L').filter (fun n => decide (n ∉ s.verts)) =
            nid :: L'.filter (fun n => decide (n ∉ s.verts)) := by
          rw [List.filter_cons, if_pos (by simpa using hnid)]
        rw [this]
        simp

/-- On a well-formed graph, filtering the key list by membership in a
predecessor set reproduces that set. -/
theorem filter_preds_toFinset {src : DAG} (hsrc : WF src) (nid : Nat) :
    (src.verts.filter (fun p => p ∈ src.get_predecessors nid)).toFinset =
      src.vertex_predecessors nid := by
  ext x
  simp only [List.mem_toFinset, List.mem_filter, decide_eq_true_eq, DAG.get_predecessors]
  exact ⟨fun h => h.2, fun h => ⟨hsrc.mem_of_pred h, h⟩⟩

/-- The predecessor-merging loops of `orMerge`: either some step detects a
cycle (and the loop aborts with the cycle error), or the loop completes,
having united the source's predecessor sets into the state — in which case
the final state was just certified acyclic (when the loop ran at all). -/
theorem orLoop34 (src : DAG) (hsrc : WF src) :
    ∀ (L : List Nat), (∀ n ∈ L, n ∈ src.verts) →
    ∀ (s : DAG), WF s → (∀ n ∈ L, n ∈ s.verts) → (∀ n ∈ src.verts, n ∈ s.verts) →
    (∃ serr, foldE (fun g nid =>
        g.update_vertex nid (src.vertex_data nid)
          (some (src.verts.filter (fun p => p ∈ src.get_predecessors nid))) true) L s =
      (some DAGError.cycleDetected, serr)) ∨
    (∃ s', foldE (fun g nid =>
        g.update_vertex nid (src.vertex_data nid)
          (some (src.verts.filter (fun p => p ∈ src.get_predecessors nid))) true) L s =
      (none, s') ∧ s'.verts = s.verts ∧
      s'.vertex_predecessors = (fun p => if p ∈ L then
          s.vertex_predecessors p ∪ src.vertex_predecessors p
        else s.vertex_predecessors p) ∧
      WF s' ∧ (L ≠ [] → Acyclic s')) := by
  intro L
  induction L with
  | nil =>
    intro _ s hwf _ _
    right
    refine ⟨s, rfl, rfl, ?_, hwf, fun h => absurd rfl h⟩
    funext p
    simp
  | cons nid L' ih =>
    intro hLsrc s hwf hLs hsub
    have hnid : nid ∈ s.verts := hLs nid (List.mem_cons_self nid L')
    have hP : ∀ p ∈ src.verts.filter (fun p => p ∈ src.get_predecessors nid),
        p ∈ s.verts := by
      intro p hp
      exact hsub p (List.mem_of_mem_filter hp)
    by_cases hac1 : Acyclic (s.set_predecessors nid (s.vertex_predecessors nid ∪
        (src.verts.filter (fun p => p ∈ src.get_predecessors nid)).toFinset))
    · obtain ⟨s1, hstep, hv1, hp1, ht1, hhc1, hwf1, -⟩ :=
        DAG.update_checked_existing_ok (d := src.vertex_data nid) hwf hnid hP hac1
      have hac1' : Acyclic s1 := by
        refine Acyclic.congr_rel (g := s.set_predecessors nid (s.vertex_predecessors nid ∪
          (src.verts.filter (fun p => p ∈ src.get_predecessors nid)).toFinset)) ?_ hac1
        rw [hp1]
        rfl
      have hpfin : s1.vertex_predecessors = Function.update s.vertex_predecessors nid
          (s.vertex_predecessors nid ∪ src.vertex_predecessors nid) := by
        rw [hp1, filter_preds_toFinset hsrc]
      rcases ih (fun n hn => hLsrc n (List.mem_cons_of_mem nid hn)) s1 hwf1
        (by
          intro n hn
          rw [hv1]
          exact hLs n (List.mem_cons_of_mem nid hn))
        (by
          intro n hn
          rw [hv1]
          exact hsub n hn) with ⟨serr, hrun⟩ | ⟨s', hrun, hv', hp', hwf', hac'⟩
      · left
        refine ⟨serr, ?_⟩
        show foldE _ (nid :: L') s = (some DAGError.cycleDetected, serr)
        unfold foldE
        rw [hstep]
        exact hrun
      · right
        refine ⟨s', ?_, ?_, ?_, hwf', fun _ => ?_⟩
        · show foldE _ (nid :: L') s = (none, s')
          unfold foldE
          rw [hstep]
          exact hrun
        · rw [hv', hv1]
        · rw [hp']
          funext p
          by_cases hpL : p ∈ L'
          · rw [if_pos hpL, if_pos (List.mem_cons_of_mem nid hpL), hpfin]
            by_cases hpn : p = nid
            · subst hpn
              rw [Function.update_same]
              ext x
              simp only [Finset.mem_union]
              tauto
            · rw [Function.update_noteq hpn]
          · rw [if_neg hpL, hpfin]
            by_cases hpn : p = nid
            · rw [hpn, Function.update_same, if_pos (List.mem_cons_self nid L')]
            · rw [Function.update_noteq hpn,
                if_neg (by simp only [List.mem_cons]; tauto)]
        · by_cases hL' : L' = []
          · subst hL'
            refine Acyclic.congr_rel (g := s1) ?_ hac1'
            rw [hp']
            funext p
            simp
          · exact hac' hL'
    · obtain ⟨gf, hstep, -⟩ :=
        DAG.update_checked_existing_err (d := src.vertex_data nid) hwf hnid hP hac1
      left
      refine ⟨gf, ?_⟩
      show foldE _ (nid :: L') s = (some DAGError.cycleDetected, gf)
      unfold foldE
      rw [hstep]

/-- The union of two graphs, as `orMerge` would assemble it when no step
fails: left vertices then the fresh right vertices, pointwise union of the
predecessor relations. -/
def unionRel (a b : DAG) : DAG :=
  { verts := a.verts ++ b.verts.filter (fun n => n ∉ a.verts)
    vertex_data := fun _ => none
    tags := fun _ => none
    vertex_predecessors := fun v => a.vertex_predecessors v ∪ b.vertex_predecessors v
    vertex_successors := none
    has_cycle := none }

/-- C7: merging two well-formed individually-acyclic graphs whose combined
predecessor relation has a cycle fails with the cycle error. -/
theorem C7_merge_cycle_failure (a b : DAG) (ha : WF a) (hb : WF b)
    (haca : Acyclic a) (hacb : Acyclic b) (hcyc : ¬ Acyclic (unionRel a b)) :
    (a.orMerge b).1 = some DAGError.cycleDetected := by
  have hwf0 : WF DAG.init :=
    WF_of_cleared List.nodup_nil (by intro v hv; cases hv) (fun _ _ => rfl) rfl rfl
  obtain ⟨s1, hrun1, hv1, hp1, hwf1⟩ := orLoop1 a.verts DAG.init (fun _ => rfl) hwf0
    (by intro n _ hn; cases hn) ha.nodup
  have hv1' : s1.verts = a.verts := by simpa [DAG.init] using hv1
  obtain ⟨s2, hrun2, hv2, hp2, hwf2⟩ := orLoop2 b.verts s1 hp1 hwf1 hb.nodup
  have hv2' : s2.verts = a.verts ++ b.verts.filter (fun n => n ∉ a.verts) := by
    rw [hv2, hv1']
  have hsub_a2 : ∀ n ∈ a.verts, n ∈ s2.verts := by
    intro n hn
    rw [hv2']
    exact List.mem_append_left _ hn
  rcases orLoop34 a ha a.verts (fun n hn => hn) s2 hwf2 hsub_a2 hsub_a2 with
    ⟨serr, hrun3⟩ | ⟨s3, hrun3, hv3, hp3, hwf3, hac3⟩
  · show (a.orMerge b).1 = some DAGError.cycleDetected
    unfold DAG.orMerge
    simp only [hrun1, hrun2, hrun3]
  · have hp3' : s3.vertex_predecessors = a.vertex_predecessors := by
      rw [hp3]
      funext p
      by_cases hp : p ∈ a.verts
      · rw [if_pos hp, hp2 p, Finset.empty_union]
      · rw [if_neg hp, hp2 p, ha.preds_outside p hp]
    have hsub_b3 : ∀ n ∈ b.verts, n ∈ s3.verts := by
      intro n hn
      rw [hv3, hv2']
      by_cases hna : n ∈ a.verts
      · exact List.mem_append_left _ hna
      · exact List.mem_append_right _ (List.mem_filter.mpr ⟨hn, by simpa using hna⟩)
    have hsub_b3' : ∀ n ∈ b.verts, n ∈ s3.verts := hsub_b3
    rcases orLoop34 b hb b.verts (fun n hn => hn) s3 hwf3 hsub_b3 hsub_b3' with
      ⟨serr, hrun4⟩ | ⟨s4, hrun4, hv4, hp4, hwf4, hac4⟩
    · show (a.orMerge b).1 = some DAGError.cycleDetected
      unfold DAG.orMerge
      simp only [hrun1, hrun2, hrun3, hrun4]
    · -- every step succeeded: the final state carries the full union
      -- relation, so its certified acyclicity contradicts the cycle
      exfalso
      have hp4' : s4.vertex_predecessors = (unionRel a b).vertex_predecessors := by
        rw [hp4, hp3']
        funext p
        by_cases hp : p ∈ b.verts
        · rw [if_pos hp]
          rfl
        · rw [if_neg hp]
          show a.vertex_predecessors p =
            a.vertex_predecessors p ∪ b.vertex_predecessors p
          rw [hb.preds_outside p hp, Finset.union_empty]
      by_cases hbv : b.verts = []
      · -- the right graph is empty, so the union relation is the left one
        apply hcyc
        refine Acyclic.congr_rel (g := a) ?_ haca
        show (fun v => a.vertex_predecessors v ∪ b.vertex_predecessors v) =
          a.vertex_predecessors
        funext p
        rw [hb.preds_outside p (by rw [hbv]; exact List.not_mem_nil p),
          Finset.union_empty]
      · exact hcyc (Acyclic.congr_rel hp4'.symm (hac4 hbv))

/-- A companion graph for the C7 witness: vertex `1` depends on vertex `0`,
so that merging with `exG` (where `0` depends on `1`) closes a cycle. -/
def exGrev : DAG :=
  { verts := [0, 1]
    vertex_data := fun _ => none
    tags := fun _ => none
    vertex_predecessors := fun v => if v = 1 then {0} else ∅
    vertex_successors := none
    has_cycle := none }

theorem exGrev_WF : WF exGrev := by
  refine WF_of_cleared (by decide) (by decide) ?_ rfl rfl
  intro v hv
  have h1 : ¬ v = 1 := by
    intro h
    subst h
    exact hv (by decide)
  simp [exGrev, h1]

theorem exGrev_acyclic : Acyclic exGrev :=
  acyclic_of_check_fst exGrev_WF (by decide)

theorem union_exG_exGrev_cyclic : ¬ Acyclic (unionRel exG exGrev) := by
  intro hac
  apply hac 0
  have h1 : (1 : Nat) ∈ (unionRel exG exGrev).vertex_predecessors 0 := by decide
  have h2 : (0 : Nat) ∈ (unionRel exG exGrev).vertex_predecessors 1 := by decide
  exact PredPath.step h1 (PredPath.single h2)

theorem C7_merge_cycle_failure_witness :
    WF exG ∧ WF exGrev ∧ Acyclic exG ∧ Acyclic exGrev ∧
    ¬ Acyclic (unionRel exG exGrev) ∧
    (exG.orMerge exGrev).1 = some DAGError.cycleDetected :=
  ⟨exG_WF, exGrev_WF, exG_acyclic, exGrev_acyclic, union_exG_exGrev_cyclic,
    C7_merge_cycle_failure exG exGrev exG_WF exGrev_WF exG_acyclic exGrev_acyclic
      union_exG_exGrev_cyclic⟩
